import Mathlib

/-!
Verification of the pagetrace library (trace codec, trace indexer, merge
parser, and address-space simulator) against its natural-language
specification.

The Go source is shallowly embedded:
* 64-bit unsigned words are `Nat` values; wherever Go `uint64` arithmetic can
  wrap, the result is reduced modulo `2 ^ 64` (`w64`, `add64`, `sub64`).
* Go `int64`/`int32` values are `Int` values reduced with `i64`/`i32` at the
  operations that can wrap.
* Go slices become `List`; a read uses `List.getD` and a write that Go would
  perform out of range (a runtime panic) makes the embedded function return
  `none`.
* The byte source (`io.ReaderAt`) is a list of 64-bit words; a read past the
  end yields the zero word, which both the indexer and the parser treat as
  the end of a processor stream.
* Loops become structural recursion, with an explicit iteration count where
  the Go loop is not structural (the count passed at each call site is an
  upper bound on the iterations the Go loop performs, and every recursive
  step re-checks the Go loop guard).
-/

namespace PageTrace

/-- `2 ^ 64`, the modulus of Go `uint64` arithmetic. -/
def U64 : Nat := 18446744073709551616

/-- Reduce a `Nat` to the value of the Go `uint64` holding it. -/
def w64 (x : Nat) : Nat := x % U64

/-- Go `uint64` addition. -/
def add64 (x y : Nat) : Nat := w64 (x + y)

/-- Go `uint64` subtraction (wraps below zero). -/
def sub64 (x y : Nat) : Nat := (x + U64 - y % U64) % U64

/-- Reduce an `Int` to the value of the Go `int64` holding it
(two's complement wrap-around). -/
def i64 (x : Int) : Int := (x + 2 ^ 63) % 2 ^ 64 - 2 ^ 63

/-- Reduce an `Int` to the value of the Go `int32` holding it. -/
def i32 (x : Int) : Int := (x + 2 ^ 31) % 2 ^ 32 - 2 ^ 31

/-- Go `int64` addition. -/
def addI (x y : Int) : Int := i64 (x + y)

/-- Go `int64` subtraction. -/
def subI (x y : Int) : Int := i64 (x - y)

/-- Reinterpret a Go `uint64` bit pattern as an `int64` value. -/
def toInt64 (x : Nat) : Int :=
  if x % U64 < 2 ^ 63 then (x % U64 : Int) else (x % U64 : Int) - 2 ^ 64

/-!  ## Event codec (parser.go)

Constants from `parser.go`: `kindBits = 3`, `pageShift = 13`,
`pageSize = 1 <<< 13`, `timeLostBits = 7`, `timeDeltaBits = 16`,
`heapAddrBits = 48`.  Event kinds: `sync = 0`, `alloc = 1`, `free = 2`,
`scav = 3`, `pid = 4`, `allocLarge = 5`, `freeLarge = 6`, `scavLarge = 7`.
-/

def kindBits : Nat := 3
def pageShift : Nat := 13
def pageSize : Nat := 8192
def timeLostBits : Nat := 7
def timeDeltaBits : Nat := 16
def heapAddrBits : Nat := 48

/-- `eventHeader.kind`: the low 3 bits of the header word. -/
def hkind (e : Nat) : Nat := e % 8

/-- `eventHeader.kindNoLarge`: `e & (kindMask >> 1)`, the kind ignoring the
"large" bit. -/
def hkindNoLarge (e : Nat) : Nat := e % 4

/-- `eventHeader.large`: bit 2 of the header word.  (In the source this
panics when the kind is `sync` or `pid`; all call sites in this file guard
the kind first, as the source's do.) -/
def hlarge (e : Nat) : Bool := e / 4 % 2 = 1

/-- `eventHeader.pid`: `int32(int64(e) >> 3)` — arithmetic shift of the word
reinterpreted as a signed 64-bit integer, truncated to 32 bits. -/
def hpid (e : Nat) : Int := i32 ((toInt64 e).fdiv 8)

/-- `eventHeader.timestamp` (for `sync` events):
`int64(e &^ kindMask) << (timeLostBits - kindBits)`. -/
def htimestamp (e : Nat) : Int := i64 (toInt64 (w64 e / 8 * 8) * 16)

/-- `eventHeader.timestampDelta` (for memory events):
`int64(e >> ((64 - timeDeltaBits) - timeLostBits))`, i.e. a right shift
by `64 - 16 - 7 = 41`. -/
def htimestampDelta (e : Nat) : Int := (w64 e / 2 ^ 41 : Nat)

/-- `eventHeader.base` (for memory events):
`uint64(e) &^ (pageSize - 1) & ((1 << heapAddrBits) - 1)`. -/
def hbase (e : Nat) : Nat := w64 e / 8192 * 8192 % 2 ^ 48

/-- `eventHeader.npagesSmall` (for small memory events):
`(uint64(e) >> kindBits) & ((1 << 10) - 1)`. -/
def hnpagesSmall (e : Nat) : Nat := w64 e / 8 % 1024

/-- The 16-bit field stored in bits 48..63 of a header word, which the spec
asserts `timestampDelta` returns. -/
def deltaField (e : Nat) : Nat := w64 e / 2 ^ 48 % 2 ^ 16

/-!  ## Simulator and State (simulator.go)

A decoded `Event`.  `Kind` keeps Go's numeric values: `0 = EventBad`,
`1 = EventAllocate`, `2 = EventFree`, `3 = EventScavenge`.  A write that Go
would perform out of a slice's range (a panic) makes `State.update` return
`none`.
-/

structure Event where
  Kind : Nat
  P : Int
  Time : Int
  Base : Nat
  Size : Nat
  deriving DecidableEq

/-- `State`: `minAddr` plus the two bitmaps.  `allocBits = none` models a
nil Go slice (the source tests `s.allocBits == nil` to decide whether the
state is initialized); a nil and an empty `scavBits` behave identically in
the source, so `scavBits` is a plain list. -/
structure State where
  minAddr : Nat
  allocBits : Option (List Nat)
  scavBits : List Nat
  deriving DecidableEq

def State.allocBitsL (s : State) : List Nat := s.allocBits.getD []

/-- `alignUp(x, align)` for a power-of-two `align`:
`(x + align - 1) &^ (align - 1)` on `uint64`. -/
def alignUp64 (x a : Nat) : Nat := w64 (x + (a - 1)) / a * a

/-- `alignDown(x, align)`: `x &^ (align - 1)`. -/
def alignDown64 (x a : Nat) : Nat := w64 x / a * a

/-- `bitmapSize(minAddr, maxAddr)`:
`int(alignUp(alignUp(maxAddr-minAddr, pageSize)/pageSize, 8) / 8)`. -/
def bitmapSize (minAddr maxAddr : Nat) : Nat :=
  alignUp64 (alignUp64 (sub64 maxAddr minAddr) pageSize / pageSize) 8 / 8

/-- `State.Size()`: `uint64(len(s.allocBits)) * 8 * pageSize`. -/
def State.Size (s : State) : Nat := w64 (s.allocBitsL.length * 8 * pageSize)

/-- `State.MinAddr()`. -/
def State.MinAddr (s : State) : Nat := s.minAddr

/-- `State.MaxAddr()`: `s.minAddr + s.Size()`. -/
def State.MaxAddr (s : State) : Nat := add64 s.minAddr s.Size

/-- `State.IsAllocated(addr)`. -/
def State.IsAllocated (s : State) (addr : Nat) : Bool :=
  if addr < s.MinAddr ∨ addr ≥ s.MaxAddr then false
  else
    let off := sub64 addr s.minAddr / pageSize
    Nat.testBit (s.allocBitsL.getD (off / 8) 0) (off % 8)

/-- `State.IsScavenged(addr)`: out-of-range addresses count as scavenged. -/
def State.IsScavenged (s : State) (addr : Nat) : Bool :=
  if addr < s.MinAddr ∨ addr ≥ s.MaxAddr then true
  else
    let off := sub64 addr s.minAddr / pageSize
    Nat.testBit (s.scavBits.getD (off / 8) 0) (off % 8)

/-- The overlap contribution one page `i` makes to `Allocated`/`Scavenged`:
`alignUp(addr, pageSize) - i` for a partial head page, `addr + size - i`
for a partial tail page, otherwise a whole page. -/
def pageContrib (addr size i : Nat) : Nat :=
  if i < addr then sub64 (alignUp64 addr pageSize) i
  else if add64 i pageSize > add64 addr size then sub64 (add64 addr size) i
  else pageSize

/-- The summation loop of `State.Allocated`.  The extra `Nat` argument
counts the remaining iterations (the Go loop steps `i` by `pageSize`
until `i < iend` fails; every call site passes an upper bound on the
number of steps, and each step re-checks the guard). -/
def allocLoop (s : State) (addr size iend : Nat) : Nat → Nat → Nat
  | 0, _ => 0
  | fuel + 1, i =>
    if i < iend then
      (if s.IsAllocated i then pageContrib addr size i else 0) +
        allocLoop s addr size iend fuel (i + pageSize)
    else 0

/-- `State.Allocated(addr, size)`. -/
def State.Allocated (s : State) (addr size : Nat) : Nat :=
  let start0 := alignDown64 addr pageSize
  let start := if start0 < s.MinAddr then s.MinAddr else start0
  let iend0 := alignUp64 (add64 addr size) pageSize
  let iend := if iend0 > s.MaxAddr then s.MaxAddr else iend0
  allocLoop s addr size iend ((iend - start) / pageSize + 1) start

/-- The summation loop of `State.Scavenged`. -/
def scavLoop (s : State) (addr size iend : Nat) : Nat → Nat → Nat
  | 0, _ => 0
  | fuel + 1, i =>
    if i < iend then
      (if s.IsScavenged i then pageContrib addr size i else 0) +
        scavLoop s addr size iend fuel (i + pageSize)
    else 0

/-- `State.Scavenged(addr, size)`. -/
def State.Scavenged (s : State) (addr size : Nat) : Nat :=
  let start0 := alignDown64 addr pageSize
  let start := if start0 < s.MinAddr then s.MinAddr else start0
  let iend0 := alignUp64 (add64 addr size) pageSize
  let iend := if iend0 > s.MaxAddr then s.MaxAddr else iend0
  scavLoop s addr size iend ((iend - start) / pageSize + 1) start

/-- `State.Clone()`: `make` always yields a non-nil slice, so a cloned
state never has a nil `allocBits`, even when the original does. -/
def State.Clone (s : State) : State := ⟨s.minAddr, some s.allocBitsL, s.scavBits⟩

/-- Set bit `i` of a byte bitmap: `l[i/8] |= 1 << (i%8)`. -/
def setBitByte (l : List Nat) (i : Nat) : List Nat :=
  l.set (i / 8) (l.getD (i / 8) 0 ||| 2 ^ (i % 8))

/-- Clear bit `i` of a byte bitmap: `l[i/8] &^= 1 << (i%8)`. -/
def clearBitByte (l : List Nat) (i : Nat) : List Nat :=
  l.set (i / 8) (l.getD (i / 8) 0 - (l.getD (i / 8) 0 &&& 2 ^ (i % 8)))

/-- The back-growth branch of `State.update`: when the event extends past
`MaxAddr`, append zero bytes to each bitmap that is shorter than the new
size. -/
def growAppend (s : State) (maxA : Nat) : State :=
  if maxA > s.MaxAddr then
    let newSize := bitmapSize s.MinAddr maxA
    ⟨s.minAddr,
     some (if s.allocBitsL.length < newSize then
        s.allocBitsL ++ List.replicate (newSize - s.allocBitsL.length) 0
      else s.allocBitsL),
     if s.scavBits.length < newSize then
        s.scavBits ++ List.replicate (newSize - s.scavBits.length) 0
      else s.scavBits⟩
  else ⟨s.minAddr, some s.allocBitsL, s.scavBits⟩

/-- The front-growth branch of `State.update`: the source reassigns
`s.minAddr` first and computes `newSize` from the reassigned state, so for
any bitmap of untruncated length the computed size equals the current
length and nothing is prepended. -/
def growFront (s1 : State) (minA : Nat) : State :=
  if minA < s1.MinAddr then
    let s2 : State := ⟨minA, s1.allocBits, s1.scavBits⟩
    let newSize := bitmapSize s2.MinAddr s2.MaxAddr
    ⟨minA,
     some (if s2.allocBitsL.length < newSize then
        List.replicate (newSize - s2.allocBitsL.length) 0 ++ s2.allocBitsL
      else s2.allocBitsL),
     if s2.scavBits.length < newSize then
        List.replicate (newSize - s2.scavBits.length) 0 ++ s2.scavBits
      else s2.scavBits⟩
  else s1

/-- The bitmap-growing prologue of `State.update`: initialize a nil bitmap,
then back growth, then front growth. -/
def growState (s : State) (e : Event) : State :=
  let minA := e.Base
  let maxA := add64 e.Base e.Size
  match s.allocBits with
  | none =>
    let n := bitmapSize minA maxA
    ⟨minA, some (List.replicate n 0), List.replicate n 0⟩
  | some _ => growFront (growAppend s maxA) minA

/-- The per-page loop of `State.update`.  `none` models the Go panic when
a bit write indexes past the end of a bitmap; for kinds other than
Allocate/Free/Scavenge the loop body returns on its first iteration,
leaving the bitmaps as they are. -/
def bitsLoop (kind iend : Nat) : Nat → Nat → List Nat → List Nat →
    Option (List Nat × List Nat)
  | 0, _, ab, sb => some (ab, sb)
  | fuel + 1, i, ab, sb =>
    if i < iend then
      match kind with
      | 1 =>
        if i / 8 < ab.length ∧ i / 8 < sb.length then
          bitsLoop kind iend fuel (i + 1) (setBitByte ab i) (clearBitByte sb i)
        else none
      | 2 =>
        if i / 8 < ab.length then
          bitsLoop kind iend fuel (i + 1) (clearBitByte ab i) sb
        else none
      | 3 =>
        if i / 8 < sb.length then
          bitsLoop kind iend fuel (i + 1) ab (setBitByte sb i)
        else none
      | _ => some (ab, sb)
    else some (ab, sb)

/-- `State.update(e)`: grow the bitmaps, then set/clear the bits of every
page in `[e.Base, e.Base+e.Size)`. -/
def State.update (s : State) (e : Event) : Option State :=
  let g := growState s e
  let off := sub64 e.Base g.minAddr / pageSize
  let iend := sub64 (add64 e.Base e.Size) g.minAddr / pageSize
  match bitsLoop e.Kind iend (iend - off) off g.allocBitsL g.scavBits with
  | none => none
  | some (ab, sb) => some ⟨g.minAddr, some ab, sb⟩

/-- A simulator: a clock plus a state. -/
structure Simulator where
  clock : Int
  state : State
  deriving DecidableEq

/-- `Simulator.Feed(e)`: `s.clock = e.Time; s.state.update(e)`. -/
def Simulator.Feed (sim : Simulator) (e : Event) : Option Simulator :=
  (sim.state.update e).map (fun st => ⟨e.Time, st⟩)

/-- `Simulator.SetState(state)` clones the state before using it. -/
def Simulator.SetState (sim : Simulator) (st : State) : Simulator :=
  ⟨sim.clock, st.Clone⟩

/-- The distinct error results of `Simulator.Validate`. -/
inductive VErr
  | badEvent | baseUnaligned | sizeUnaligned | outOfOrder | doubleAlloc | doubleFree
  deriving DecidableEq

/-- `Simulator.Validate(e)`, with its checks in source order. -/
def Simulator.Validate (sim : Simulator) (e : Event) : Option VErr :=
  if e.Kind = 0 then some .badEvent
  else if e.Base % pageSize ≠ 0 then some .baseUnaligned
  else if e.Size % pageSize ≠ 0 then some .sizeUnaligned
  else if e.Time < sim.clock then some .outOfOrder
  else if e.Kind = 1 then
    if sim.state.Allocated e.Base e.Size ≠ 0 then some .doubleAlloc else none
  else if e.Kind = 2 then
    if sim.state.Allocated e.Base e.Size ≠ e.Size then some .doubleFree else none
  else none

/-- The zero value of `State` (Go's `State{}`): nil bitmaps. -/
def emptyState : State := ⟨0, none, []⟩

/-- The zero value of `Simulator`. -/
def emptySim : Simulator := ⟨0, emptyState⟩

/-- `update` applied along a sequence of events; `none` as soon as one
update panics. -/
def feedSeq (s : State) : List Event → Option State
  | [] => some s
  | e :: es => (s.update e).bind (fun s' => feedSeq s' es)

/-- Bit `i` of a byte bitmap (bit `i % 8` of byte `i / 8`). -/
def bitAt (l : List Nat) (i : Nat) : Bool := Nat.testBit (l.getD (i / 8) 0) (i % 8)

/-- Precondition of a Scavenge event: every page it touches (in the page
indexing of the grown bitmap, exactly the indices the `update` loop visits)
has a clear alloc bit. -/
def scavRangeFree (s : State) (e : Event) : Prop :=
  let g := growState s e
  let off := sub64 e.Base g.minAddr / pageSize
  let iend := sub64 (add64 e.Base e.Size) g.minAddr / pageSize
  ∀ i, i < iend → off ≤ i → bitAt g.allocBitsL i = false

instance instDecScavRangeFree (s : State) (e : Event) :
    Decidable (scavRangeFree s e) := by
  unfold scavRangeFree
  infer_instance

/-- Along a sequence of events, every Scavenge is applied to pages that are
not currently allocated. -/
def ScavSafe : State → List Event → Prop
  | _, [] => True
  | s, e :: es =>
    (e.Kind = 3 → scavRangeFree s e) ∧
      (match s.update e with
       | none => True
       | some s' => ScavSafe s' es)

instance instDecScavSafe : (s : State) → (es : List Event) → Decidable (ScavSafe s es)
  | _, [] => .isTrue trivial
  | s, e :: es => by
    rw [ScavSafe]
    have h : Decidable (match s.update e with
        | none => True
        | some s' => ScavSafe s' es) := by
      cases s.update e with
      | none => exact .isTrue trivial
      | some s' => exact instDecScavSafe s' es
    exact instDecidableAnd

/-!  ## Trace container and indexer

The trace index.  `words` stands for the `io.ReaderAt` byte source, split
into 64-bit little-endian words; the indexer and the parser only ever read
it 8 aligned bytes at a time.  `Interval.stop` is the Go field `end`
(a reserved word in Lean).
-/

structure Interval where
  start : Int
  stop : Int
  startTime : Int
  endTime : Int
  deriving DecidableEq

structure GTrace where
  words : List Nat
  blocks : List (List Interval)
  minTraceTime : Int
  startTime : Int
  endTime : Int
  minAddr : Nat
  maxAddr : Nat
  deriving DecidableEq

/-- `pidIndex(pid)`: `pid + 1`, so that pid -1 is at index 0. -/
def pidIndex (pid : Int) : Int := pid + 1

/-- `pidFromIndex(pidx)`. -/
def pidFromIndex (pidx : Nat) : Int := (pidx : Int) - 1

/-- `Trace.TimeStart()`: `startTime - minTraceTime` as a duration. -/
def GTrace.TimeStart (t : GTrace) : Int := subI t.startTime t.minTraceTime

/-- `Trace.TimeEnd()`: `endTime - minTraceTime` as a duration. -/
def GTrace.TimeEnd (t : GTrace) : Int := subI t.endTime t.minTraceTime

/-- `Trace.Duration()`. -/
def GTrace.Duration (t : GTrace) : Int := subI t.endTime t.startTime

/-- `Trace.Clone()`: a value copy (the Go code deep-copies the block
lists and shares the reader). -/
def GTrace.Clone (t : GTrace) : GTrace := t

/-- `Trace.Slice(s, e)`: clamp `[minTraceTime+s, minTraceTime+e]` to
`[startTime, endTime]`, return an empty trace if the result is empty, and
otherwise keep per processor the intervals overlapping the window. -/
def GTrace.Slice (t : GTrace) (s e : Int) : GTrace :=
  let start0 := addI t.minTraceTime s
  let stop0 := addI t.minTraceTime e
  let stop1 := if stop0 > t.endTime then t.endTime else stop0
  let start1 := if start0 < t.startTime then t.startTime else start0
  if stop1 ≤ start1 then
    { t with blocks := List.replicate t.blocks.length [],
             startTime := t.minTraceTime, endTime := t.minTraceTime }
  else
    { t with startTime := start1, endTime := stop1,
             blocks := t.blocks.map (fun blk =>
               blk.filter (fun iv => !(iv.endTime < start1 || iv.startTime > stop1))) }

/-- The indexer's per-word state (the local variables of `NewTrace`).
`cur` is the currently open interval; `curIdx = some i` records which
block list it belongs to (in the source, `cur` is a pointer to the last
interval of `blocks[i]`; `none` is the initial dangling interval that is
never stored). -/
structure NTSt where
  expectNpagesTrailer : Bool
  wantTime : Bool
  startTime : Int
  endTime : Int
  syncTime : Int
  minAddr : Nat
  maxAddr : Nat
  npagesTrailerBaseAddr : Nat
  blocks : List (List Interval)
  cur : Interval
  curIdx : Option Nat
  cursor : Int
  deriving DecidableEq

def ntInit : NTSt := ⟨false, false, 0, 0, 0, 0, 0, 0, [], ⟨0, 0, 0, 0⟩, none, 0⟩

/-- Close the open interval at byte offset `stop` with end time `endTime`
(the writes `cur.end = ...; cur.endTime = ...` through the `cur` pointer). -/
def ntClose (st : NTSt) (stop endTime : Int) : List (List Interval) :=
  match st.curIdx with
  | none => st.blocks
  | some idx =>
    st.blocks.set idx
      (st.blocks.getD idx [] ++ [{ st.cur with stop := stop, endTime := endTime }])

/-- The extent-update part of one `NewTrace` word (the
`if e.kind() != pid { ... }` block): records sync and memory-event times
and the address extents, and returns `curTime`. -/
def ntExtents (st : NTSt) (u : Nat) : NTSt × Int :=
  let k := hkind u
  if k = 4 then (st, (0 : Int))
  else if k = 0 then
    let t := htimestamp u
    ({ st with syncTime := t,
               endTime := if t > st.endTime then t else st.endTime }, t)
  else
    let mn := hbase u
    let st1 := { st with
      expectNpagesTrailer := hlarge u,
      minAddr := if st.minAddr = 0 ∨ mn < st.minAddr then mn else st.minAddr }
    let st2 :=
      if hlarge u then { st1 with npagesTrailerBaseAddr := mn }
      else
        let mx := add64 mn (w64 (hnpagesSmall u * pageSize))
        { st1 with
          maxAddr := if st1.maxAddr = 0 ∨ mx > st1.maxAddr then mx else st1.maxAddr }
    let ct := addI st.syncTime (htimestampDelta u)
    ({ st2 with endTime := if ct > st2.endTime then ct else st2.endTime }, ct)

/-- One word of the `NewTrace` scan.  Mirrors the body of the inner loop:
the npages-trailer case, the extent updates for sync and memory headers,
the `wantTime` check, and the block construction at a pid header.  A Go
panic from a negative processor index is an error result. -/
def ntStep (st : NTSt) (u : Nat) : Except String NTSt :=
  if st.expectNpagesTrailer then
    let mx := add64 st.npagesTrailerBaseAddr (w64 (u * pageSize))
    .ok { st with
      maxAddr := if st.maxAddr = 0 ∨ mx > st.maxAddr then mx else st.maxAddr,
      expectNpagesTrailer := false, cursor := st.cursor + 8 }
  else
    let k := hkind u
    let st1 := (ntExtents st u).1
    let curTime := (ntExtents st u).2
    if st1.wantTime then
      if k ≠ 0 then .error "expected sync event immediately following pid event"
      else
        let t := htimestamp u
        .ok { st1 with
          startTime := if st1.startTime = 0 ∨ t < st1.startTime then t
            else st1.startTime,
          cur := { st1.cur with startTime := t },
          wantTime := false, cursor := st1.cursor + 8 }
    else if k ≠ 4 then .ok { st1 with cursor := st1.cursor + 8 }
    else
      let idx := pidIndex (hpid u)
      if idx < 0 then .error "negative processor index"
      else
        let idxN := idx.toNat
        let blocks1 := ntClose st1 st1.cursor curTime
        let np := idxN + 1
        let blocks2 := if blocks1.length < np then
            blocks1 ++ List.replicate (np - blocks1.length) [] else blocks1
        .ok { st1 with
          blocks := blocks2,
          cur := ⟨st1.cursor, 0, 0, 0⟩,
          curIdx := some idxN,
          wantTime := true,
          cursor := st1.cursor + 8 }

/-- The final `cur.end = cursor` write after the scan (the end time of the
last interval keeps its zero value, as in the source). -/
def ntCloseFinal (st : NTSt) : List (List Interval) :=
  match st.curIdx with
  | none => st.blocks
  | some idx =>
    st.blocks.set idx (st.blocks.getD idx [] ++ [{ st.cur with stop := st.cursor }])

/-- `NewTrace(r)`: scan the words once, building the block index and the
time/address extents. -/
def NewTrace (words : List Nat) : Except String GTrace :=
  match List.foldlM ntStep ntInit words with
  | .error msg => .error msg
  | .ok st =>
    .ok { words := words, blocks := ntCloseFinal st,
          minTraceTime := st.startTime, startTime := st.startTime,
          endTime := st.endTime, minAddr := st.minAddr, maxAddr := st.maxAddr }

/-- Read the 8 bytes at byte offset `off` of the byte source (a positioned
read; reading outside the source yields the zero word, which the trace
code treats as the end of a processor stream). -/
def readWord (words : List Nat) (off : Int) : Nat :=
  if 0 ≤ off ∧ off / 8 < (words.length : Int) then w64 (words.getD (off / 8).toNat 0)
  else 0

/-- The properties of an interval stored in a block list: 8-byte-aligned
offsets, `start ≤ end`, and the word at `start` is a `Pid` header. -/
def GoodIv (words : List Nat) (iv : Interval) : Prop :=
  (8 : Int) ∣ iv.start ∧ (8 : Int) ∣ iv.stop ∧ iv.start ≤ iv.stop ∧
    hkind (readWord words iv.start) = 4

/-- The `NewTrace` scan invariant: the cursor is 8-byte aligned, closed
intervals are `GoodIv`, and the open interval (when owned by a block list)
starts at a `Pid` word at or before the cursor. -/
def NTInv (words : List Nat) (st : NTSt) : Prop :=
  (8 : Int) ∣ st.cursor ∧ 0 ≤ st.cursor ∧
  (∀ blk ∈ st.blocks, ∀ iv ∈ blk, GoodIv words iv) ∧
  (st.curIdx.isSome = true →
    (8 : Int) ∣ st.cur.start ∧ 0 ≤ st.cur.start ∧ st.cur.start ≤ st.cursor ∧
    hkind (readWord words st.cur.start) = 4)

/-!  ## Parser (parser.go)

The merge parser.  A `PState` carries the fields of Go's `Parser` that
`Next` reads: the cloned trace (its word source, time extents and
per-processor block queues) plus the per-processor clocks and pending
events.  `PEv` is Go's `event` (header word plus npages trailer); the
zero header marks an exhausted processor stream, as in the source.
-/

structure PEv where
  hdr : Nat
  npages : Nat
  deriving DecidableEq

structure PState where
  words : List Nat
  minTraceTime : Int
  startTime : Int
  endTime : Int
  blocks : List (List Interval)
  clocks : List Int
  events : List PEv
  deriving DecidableEq

/-- `math.MaxInt64`, the sentinel of `Next`'s minimum-timestamp scan. -/
def maxI64 : Int := 9223372036854775807

/-- `Parser.read8(pidx)`: pop 8 bytes from the head interval of processor
`pidx`'s block queue (advancing or dequeuing it), returning the zero word
when the queue is empty. -/
def read8 (p : PState) (pidx : Nat) : Nat × PState :=
  match p.blocks.getD pidx [] with
  | [] => (0, p)
  | iv :: rest =>
    let u := readWord p.words iv.start
    let iv2 := { iv with start := iv.start + 8 }
    (u, { p with blocks :=
      if iv2.start = iv.stop then p.blocks.set pidx rest
      else p.blocks.set pidx (iv2 :: rest) })

/-- `event.makeEvent(p, timestamp, startTimestamp)`: decode the header
into an `Event` (`Size` is `pageSize * npages` in `uint64` arithmetic). -/
def makeEvent (e : PEv) (pp : Int) (timestamp startTimestamp : Int) : Event :=
  ⟨hkindNoLarge e.hdr, pp, subI timestamp startTimestamp, hbase e.hdr,
    w64 (pageSize * e.npages)⟩

/-- `Parser.refreshEvent(pidx)`: read words until a memory event (or the
end of the stream) appears, updating the processor clock at `sync` words
and erroring on a `pid` word for a different processor.  The `Nat` fuel
bounds the loop (each iteration consumes one word of the finite stream);
`none` means the fuel ran out before the loop exited. -/
def refreshEvent : PState → Nat → Nat → Option (Except String (PEv × PState))
  | _, _, 0 => none
  | p, pidx, fuel + 1 =>
    let r := read8 p pidx
    if r.1 = 0 then some (.ok (⟨0, 0⟩, r.2))
    else if hkind r.1 = 0 then
      refreshEvent { r.2 with clocks := r.2.clocks.set pidx (htimestamp r.1) }
        pidx fuel
    else if hkind r.1 = 4 then
      if pidIndex (hpid r.1) ≠ (pidx : Int) then
        some (.error ("pid event for a different P"))
      else refreshEvent r.2 pidx fuel
    else if hlarge r.1 then
      let r2 := read8 r.2 pidx
      some (.ok (⟨r.1, r2.1⟩, r2.2))
    else some (.ok (⟨r.1, hnpagesSmall r.1⟩, r.2))

/-- The minimum-timestamp scan of `Next` (`for i, e := range p.events`):
skip zero headers, reconstruct `clocks[i] + timestampDelta`, and keep the
first strictly smaller candidate. -/
def selLoop (clks : List Int) : List PEv → Nat → Int × Nat × PEv → Int × Nat × PEv
  | [], _, acc => acc
  | e :: rest, i, acc =>
    if e.hdr = 0 then selLoop clks rest (i + 1) acc
    else
      let ts := addI (clks.getD i 0) (htimestampDelta e.hdr)
      if acc.1 > ts then selLoop clks rest (i + 1) (ts, i, e)
      else selLoop clks rest (i + 1) acc

/-- The scan over all pending events, started at `math.MaxInt64`. -/
def selGo (evs : List PEv) (clks : List Int) : Int × Nat × PEv :=
  selLoop clks evs 0 (maxI64, 0, ⟨0, 0⟩)

/-- The result of one `Parser.Next` call: an event with the updated
parser, `io.EOF`, a parse error, or fuel exhaustion of the embedded
loops. -/
inductive NextRes where
  | ev : Event → PState → NextRes
  | eof : NextRes
  | err : NextRes
  | spin : NextRes
  deriving DecidableEq

/-- `Parser.Next()` on an initialized parser: select the pending event
with the minimum reconstructed timestamp, return `io.EOF` past the end of
the trace window, refresh the chosen processor, and silently retry
(`goto top`) on events before the window.  `fR` bounds each
`refreshEvent` loop and the second `Nat` argument bounds the `goto top`
retries. -/
def pNext : PState → Nat → Nat → NextRes
  | _, _, 0 => .spin
  | p, fR, fT + 1 =>
    let sel := selGo p.events p.clocks
    if sel.1 = maxI64 then .eof
    else
      let e := makeEvent sel.2.2 (pidFromIndex sel.2.1) sel.1 p.minTraceTime
      if e.Time > subI p.endTime p.minTraceTime then .eof
      else
        match refreshEvent p sel.2.1 fR with
        | none => .spin
        | some (.error _) => .err
        | some (.ok (r, q)) =>
          let p3 := { q with events := q.events.set sel.2.1 r }
          if e.Time < subI p.startTime p.minTraceTime then pNext p3 fR fT
          else .ev e p3

/-- The reconstructed timestamp `clocks[i] + events[i].timestampDelta()`
of processor `i`'s pending event. -/
def pendTs (p : PState) (i : Nat) : Int :=
  addI (p.clocks.getD i 0) (htimestampDelta ((p.events.getD i ⟨0, 0⟩).hdr))

/-- The minimum-timestamp scan of a parser state. -/
def selOf (p : PState) : Int × Nat × PEv := selGo p.events p.clocks

/-- The event `Next` is about to build from the scan's minimum. -/
def evOf (p : PState) : Event :=
  makeEvent (selOf p).2.2 (pidFromIndex (selOf p).2.1) (selOf p).1 p.minTraceTime

/-- `p.trace.TimeStart()` as read by `Next`. -/
def pTimeStart (p : PState) : Int := subI p.startTime p.minTraceTime

/-- `p.trace.TimeEnd()` as read by `Next`. -/
def pTimeEnd (p : PState) : Int := subI p.endTime p.minTraceTime

/-- C2 counterexample: the claim says `timestamp_delta(w)` equals the
16-bit field in bits 48..63 of `w` and in particular is `< 2 ^ 16`.
For the memory-event header `w = 2 ^ 63 + 1` (kind `alloc`, delta field
`2 ^ 15`), the source's `timestampDelta` — a right shift by 41 — returns
`2 ^ 22`, which differs from the field and is not below `2 ^ 16`. -/
theorem timestampDelta_not_field :
    hkind (2 ^ 63 + 1) = 1 ∧
    htimestampDelta (2 ^ 63 + 1) ≠ (deltaField (2 ^ 63 + 1) : Int) ∧
    ¬ htimestampDelta (2 ^ 63 + 1) < 2 ^ 16 := by
  refine ⟨rfl, ?_, ?_⟩ <;> decide

/-- C2 (amended): for every 64-bit memory-event header word `w`,
`timestampDelta w` is the word shifted right by 41 bits: it equals the
16-bit delta field of bits 48..63 multiplied by `2 ^ 7` plus the seven
address bits 41..47, and is therefore below `2 ^ 23` (not `2 ^ 16`).
It equals `deltaField w * 2 ^ 7` exactly when bits 41..47 are all clear. -/
theorem timestampDelta_shift41 (w : Nat) (hw : w < 2 ^ 64)
    (_hk : hkind w ≠ 0 ∧ hkind w ≠ 4) :
    htimestampDelta w = (deltaField w * 2 ^ 7 + w / 2 ^ 41 % 2 ^ 7 : Nat) ∧
    htimestampDelta w < 2 ^ 23 := by
  have hmod : w64 w = w := Nat.mod_eq_of_lt hw
  constructor
  · simp only [htimestampDelta, deltaField, hmod]
    have h1 : w / 2 ^ 48 = w / 2 ^ 41 / 2 ^ 7 := by
      rw [Nat.div_div_eq_div_mul]
      norm_num
    have h2 : w / 2 ^ 48 % 2 ^ 16 = w / 2 ^ 48 := by
      apply Nat.mod_eq_of_lt
      exact Nat.div_lt_of_lt_mul (by exact hw)
    rw [h2, h1]
    have := Nat.div_add_mod (w / 2 ^ 41) (2 ^ 7)
    push_cast
    omega
  · simp only [htimestampDelta, hmod]
    have : w / 2 ^ 41 < 2 ^ 23 := Nat.div_lt_of_lt_mul (by exact hw)
    exact_mod_cast this

/-- Witness for `timestampDelta_shift41` at the header word of a small
`alloc` event with base `2 ^ 42` and delta field 3. -/
theorem timestampDelta_shift41_witness :
    htimestampDelta (3 * 2 ^ 48 + 2 ^ 42 + 1) =
      (deltaField (3 * 2 ^ 48 + 2 ^ 42 + 1) * 2 ^ 7 +
        (3 * 2 ^ 48 + 2 ^ 42 + 1) / 2 ^ 41 % 2 ^ 7 : Nat) ∧
    htimestampDelta (3 * 2 ^ 48 + 2 ^ 42 + 1) < 2 ^ 23 :=
  timestampDelta_shift41 (3 * 2 ^ 48 + 2 ^ 42 + 1) (by norm_num)
    ⟨by decide, by decide⟩

/-- C3 counterexample: from the empty state, `Allocate(0, 8192)` followed by
`Scavenge(0, 8192)` is a sequence of Allocate/Free/Scavenge updates after
which page 0 — inside the tracked range — has its alloc bit and its scav
bit set simultaneously (`update` never clears the alloc bit on Scavenge). -/
theorem alloc_scav_overlap_cex :
    feedSeq emptyState [⟨1, -1, 0, 0, 8192⟩, ⟨3, -1, 1, 0, 8192⟩] =
      some ⟨0, some [1], [1]⟩ ∧
    State.IsAllocated ⟨0, some [1], [1]⟩ 0 = true ∧
    State.IsScavenged ⟨0, some [1], [1]⟩ 0 = true ∧
    State.MinAddr ⟨0, some [1], [1]⟩ ≤ 0 ∧ 0 < State.MaxAddr ⟨0, some [1], [1]⟩ := by
  refine ⟨by decide, by decide, by decide, by decide, by decide⟩

/-- C4 counterexample: feeding the Bad-kind event `{Bad, Base 0, Size 8192}`
to the empty simulator grows the bitmap even though no bit is written, so
`Size` changes from 0 to 65536 and `IsScavenged 0` flips from `true`
(untracked) to `false` (tracked, scav bit clear): the state's observers do
not all return the same results before and after the Feed. -/
theorem feed_bad_changes_state_cex :
    emptySim.Feed ⟨0, -1, 0, 0, 8192⟩ = some ⟨0, ⟨0, some [0], [0]⟩⟩ ∧
    emptySim.state.Size = 0 ∧
    State.Size ⟨0, some [0], [0]⟩ = 65536 ∧
    emptySim.state.IsScavenged 0 = true ∧
    State.IsScavenged ⟨0, some [0], [0]⟩ 0 = false := by
  refine ⟨by decide, by decide, by decide, by decide, by decide⟩

/-- C10: the front-growth branch of `State.update` reassigns `minAddr`
before computing the prepend size, so it never prepends; a later event
whose range extends past the (re-based) bitmap then indexes out of range.
From the empty state, `Allocate(0x100000, 8192)` followed by
`Allocate(0xF0000, 131072)` makes the loop write `allocBits[1]` in a 1-byte
bitmap: the Go code panics (modelled as `none`). -/
theorem update_index_out_of_range :
    feedSeq emptyState [⟨1, -1, 0, 1048576, 8192⟩, ⟨1, -1, 1, 983040, 131072⟩] =
      none := by
  decide

/-- C6: `Trace.Slice(s, e)` clamps `[minTraceTime+s, minTraceTime+e]` to
`[startTime, endTime]`; it copies `minAddr`, `maxAddr` and `minTraceTime`
unchanged; if the clamped window is empty it returns a trace whose start
and end times are both `minTraceTime` and whose block lists are all empty;
otherwise it keeps per processor exactly the intervals `iv` with
`start ≤ iv.endTime` and `iv.startTime ≤ stop`. -/
theorem slice_spec (t : GTrace) (s e : Int) :
    (t.Slice s e).minAddr = t.minAddr ∧
    (t.Slice s e).maxAddr = t.maxAddr ∧
    (t.Slice s e).minTraceTime = t.minTraceTime ∧
    (let start := max (addI t.minTraceTime s) t.startTime
     let stop := min (addI t.minTraceTime e) t.endTime
     if stop ≤ start then
       (t.Slice s e).startTime = t.minTraceTime ∧
       (t.Slice s e).endTime = t.minTraceTime ∧
       ∀ blk ∈ (t.Slice s e).blocks, blk = []
     else
       (t.Slice s e).startTime = start ∧
       (t.Slice s e).endTime = stop ∧
       (t.Slice s e).blocks = t.blocks.map (fun blk =>
         blk.filter (fun iv =>
           decide (start ≤ iv.endTime) && decide (iv.startTime ≤ stop)))) := by
  have hstop : (if addI t.minTraceTime e > t.endTime then t.endTime
      else addI t.minTraceTime e) = min (addI t.minTraceTime e) t.endTime := by
    split <;> omega
  have hstart : (if addI t.minTraceTime s < t.startTime then t.startTime
      else addI t.minTraceTime s) = max (addI t.minTraceTime s) t.startTime := by
    split <;> omega
  have hpred : (fun iv : Interval =>
      !(decide (iv.endTime < max (addI t.minTraceTime s) t.startTime) ||
        decide (iv.startTime > min (addI t.minTraceTime e) t.endTime))) =
      (fun iv : Interval =>
        decide (max (addI t.minTraceTime s) t.startTime ≤ iv.endTime) &&
        decide (iv.startTime ≤ min (addI t.minTraceTime e) t.endTime)) := by
    funext iv
    rw [Bool.not_or, ← decide_not, ← decide_not]
    simp [not_lt]
  by_cases h : min (addI t.minTraceTime e) t.endTime ≤
      max (addI t.minTraceTime s) t.startTime
  · simp only [GTrace.Slice, hstop, hstart, if_pos h]
    exact ⟨trivial, trivial, trivial, trivial, trivial,
      fun blk hb => List.eq_of_mem_replicate hb⟩
  · simp only [GTrace.Slice, hstop, hstart, if_neg h]
    exact ⟨trivial, trivial, trivial, trivial, trivial, by rw [← hpred]⟩

theorem hkind_w64 (u : Nat) : hkind (w64 u) = hkind u := by
  unfold hkind w64 U64
  omega

theorem readWord_at (done rest : List Nat) (u : Nat) :
    readWord (done ++ u :: rest) (8 * (done.length : Int)) = w64 u := by
  unfold readWord
  have h8 : (8 * (done.length : Int)) / 8 = (done.length : Int) := by omega
  rw [if_pos]
  · congr 1
    rw [h8, Int.toNat_natCast, List.getD_eq_getElem?_getD,
      List.getElem?_append_right (Nat.le_refl _)]
    simp
  · constructor
    · positivity
    · rw [h8]
      simp only [List.length_append, List.length_cons]
      push_cast
      omega

/-- `ntExtents` touches only the time/address-extent fields. -/
theorem ntExtents_frame (st : NTSt) (u : Nat) :
    (ntExtents st u).1.blocks = st.blocks ∧ (ntExtents st u).1.cur = st.cur ∧
    (ntExtents st u).1.curIdx = st.curIdx ∧ (ntExtents st u).1.cursor = st.cursor ∧
    (ntExtents st u).1.wantTime = st.wantTime := by
  unfold ntExtents
  by_cases h4 : hkind u = 4 <;> by_cases h0 : hkind u = 0 <;>
    by_cases hl : hlarge u <;> simp [h4, h0, hl]

theorem ntStep_inv (done rest : List Nat) (u : Nat) (st st' : NTSt)
    (hcur : st.cursor = 8 * (done.length : Int))
    (hinv : NTInv (done ++ u :: rest) st)
    (hstep : ntStep st u = .ok st') :
    NTInv (done ++ u :: rest) st' ∧ st'.cursor = st.cursor + 8 := by
  obtain ⟨hdvd, hpos, hblocks, hcurIv⟩ := hinv
  unfold ntStep at hstep
  by_cases htr : st.expectNpagesTrailer
  · rw [if_pos htr] at hstep
    cases hstep
    refine ⟨⟨dvd_add hdvd ⟨1, rfl⟩, by dsimp only; omega, hblocks, fun h => ?_⟩, rfl⟩
    obtain ⟨a, b, c, d⟩ := hcurIv h
    exact ⟨a, b, by dsimp only; omega, d⟩
  · rw [if_neg htr] at hstep
    simp only [] at hstep
    obtain ⟨hfb, hfc, hfi, hfcur, hfw⟩ := ntExtents_frame st u
    by_cases hwt : (ntExtents st u).1.wantTime
    · rw [if_pos hwt] at hstep
      by_cases hk : hkind u ≠ 0
      · rw [if_pos hk] at hstep
        exact absurd hstep (by simp)
      · rw [if_neg hk] at hstep
        cases hstep
        refine ⟨⟨by simpa [hfcur] using dvd_add hdvd ⟨1, rfl⟩,
          by simp [hfcur] <;> omega, by simpa [hfb] using hblocks, fun h => ?_⟩,
          by simp [hfcur]⟩
        simp only [hfi] at h
        obtain ⟨a, b, c, d⟩ := hcurIv h
        refine ⟨by simpa [hfc] using a, by simpa [hfc] using b,
          by simp [hfc, hfcur] <;> omega, by simpa [hfc] using d⟩
    · rw [if_neg hwt] at hstep
      by_cases hk4 : hkind u ≠ 4
      · rw [if_pos hk4] at hstep
        cases hstep
        refine ⟨⟨by simpa [hfcur] using dvd_add hdvd ⟨1, rfl⟩,
          by simp [hfcur] <;> omega, by simpa [hfb] using hblocks, fun h => ?_⟩,
          by simp [hfcur]⟩
        simp only [hfi] at h
        obtain ⟨a, b, c, d⟩ := hcurIv h
        exact ⟨by simpa [hfc] using a, by simpa [hfc] using b,
          by simp [hfc, hfcur] <;> omega, by simpa [hfc] using d⟩
      · rw [if_neg hk4] at hstep
        by_cases hneg : pidIndex (hpid u) < 0
        · rw [if_pos hneg] at hstep
          exact absurd hstep (by simp)
        · rw [if_neg hneg] at hstep
          cases hstep
          have hword : hkind (readWord (done ++ u :: rest) st.cursor) = 4 := by
            rw [hcur, readWord_at, hkind_w64]
            omega
          have hclose : ∀ blk ∈ ntClose (ntExtents st u).1 (ntExtents st u).1.cursor
              (ntExtents st u).2, ∀ iv ∈ blk, GoodIv (done ++ u :: rest) iv := by
            unfold ntClose
            rw [hfi, hfc, hfcur, hfb]
            match hidx : st.curIdx with
            | none => exact hblocks
            | some idx =>
              intro blk hblk iv hiv
              rcases List.mem_or_eq_of_mem_set hblk with hmem | rfl
              · exact hblocks blk hmem iv hiv
              · rcases List.mem_append.1 hiv with hmem | hmem
                · rcases Nat.lt_or_ge idx st.blocks.length with hlt | hge
                  · refine hblocks _ ?_ iv hmem
                    rw [List.getD_eq_getElem?_getD, List.getElem?_eq_getElem hlt]
                    exact List.getElem_mem _
                  · rw [List.getD_eq_default _ _ hge] at hmem
                    cases hmem
                · obtain ⟨a, b, c, d⟩ := hcurIv (by rw [hidx]; rfl)
                  rw [List.mem_singleton] at hmem
                  subst hmem
                  exact ⟨a, hdvd, c, d⟩
          refine ⟨⟨by simpa [hfcur] using dvd_add hdvd ⟨1, rfl⟩,
            by simp [hfcur] <;> omega, ?_, fun _ => ?_⟩, by simp [hfcur]⟩
          · intro blk hblk iv hiv
            dsimp only at hblk
            have hblk2 : blk ∈ ntClose (ntExtents st u).1 (ntExtents st u).1.cursor
                (ntExtents st u).2 ++
                List.replicate ((pidIndex (hpid u)).toNat + 1 -
                  (ntClose (ntExtents st u).1 (ntExtents st u).1.cursor
                    (ntExtents st u).2).length) [] := by
              by_cases hgrow : (ntClose (ntExtents st u).1 (ntExtents st u).1.cursor
                  (ntExtents st u).2).length < (pidIndex (hpid u)).toNat + 1
              · rw [if_pos hgrow] at hblk
                exact hblk
              · rw [if_neg hgrow] at hblk
                exact List.mem_append_left _ hblk
            rcases List.mem_append.1 hblk2 with hmem | hmem
            · exact hclose blk hmem iv hiv
            · rw [List.eq_of_mem_replicate hmem] at hiv
              cases hiv
          · refine ⟨by simpa [hfcur] using hdvd, by simp [hfcur] <;> omega,
              by simp [hfcur] <;> omega, ?_⟩
            simpa [hfcur] using hword

theorem ntFold_inv : ∀ (todo done : List Nat) (st st' : NTSt),
    st.cursor = 8 * (done.length : Int) →
    NTInv (done ++ todo) st →
    List.foldlM ntStep st todo = .ok st' →
    NTInv (done ++ todo) st'
  | [], done, st, st', _, hinv, hfold => by
    simp only [List.foldlM_nil] at hfold
    cases hfold
    exact hinv
  | u :: rest, done, st, st', hcur, hinv, hfold => by
    simp only [List.foldlM_cons] at hfold
    cases h1 : ntStep st u with
    | error msg => rw [h1] at hfold; cases hfold
    | ok st1 =>
      rw [h1] at hfold
      obtain ⟨hinv1, hcur1⟩ := ntStep_inv done rest u st st1 hcur hinv h1
      have hre : done ++ u :: rest = (done ++ [u]) ++ rest := by
        rw [List.append_assoc]; rfl
      rw [hre] at hinv1 ⊢
      refine ntFold_inv rest (done ++ [u]) st1 st' ?_ hinv1 hfold
      rw [hcur1, hcur]
      simp only [List.length_append, List.length_singleton]
      push_cast
      ring

/-- C9 (amended): in a successfully indexed trace, every stored interval
has 8-byte-aligned `start` and `end` offsets with `start ≤ end`, and the
interval begins AT its `Pid` word — the `Pid` header (and the `Sync` that
follows it) are the first words inside the interval, not before it. -/
theorem newTrace_interval_invariant (words : List Nat) (t : GTrace)
    (h : NewTrace words = .ok t) :
    ∀ blk ∈ t.blocks, ∀ iv ∈ blk,
      (8 : Int) ∣ iv.start ∧ (8 : Int) ∣ iv.stop ∧ iv.start ≤ iv.stop ∧
      hkind (readWord words iv.start) = 4 := by
  unfold NewTrace at h
  cases hf : List.foldlM ntStep ntInit words with
  | error msg => rw [hf] at h; cases h
  | ok st =>
    rw [hf] at h
    cases h
    have hinit : NTInv ([] ++ words) ntInit := by
      refine ⟨⟨0, rfl⟩, le_refl 0, ?_, ?_⟩
      · intro blk hblk
        cases hblk
      · intro hsome
        cases hsome
    obtain ⟨hdvd, hpos, hblocks, hcurIv⟩ :=
      ntFold_inv words [] ntInit st rfl hinit hf
    intro blk hblk iv hiv
    dsimp only at hblk
    unfold ntCloseFinal at hblk
    revert hblk
    match hidx : st.curIdx with
    | none =>
      intro hblk
      exact hblocks blk hblk iv hiv
    | some idx =>
      intro hblk
      rcases List.mem_or_eq_of_mem_set hblk with hmem | rfl
      · exact hblocks blk hmem iv hiv
      · rcases List.mem_append.1 hiv with hmem | hmem
        · rcases Nat.lt_or_ge idx st.blocks.length with hlt | hge
          · refine hblocks _ ?_ iv hmem
            rw [List.getD_eq_getElem?_getD, List.getElem?_eq_getElem hlt]
            exact List.getElem_mem _
          · rw [List.getD_eq_default _ _ hge] at hmem
            cases hmem
        · obtain ⟨a, b, c, d⟩ := hcurIv (by rw [hidx]; rfl)
          rw [List.mem_singleton] at hmem
          subst hmem
          exact ⟨a, hdvd, c, d⟩

/-- Witness for `newTrace_interval_invariant` on the two-word trace
`[Pid(0), Sync(128)]`: its single interval is 8-aligned, ordered, and
starts at the `Pid` word. -/
theorem newTrace_interval_invariant_witness :
    (8 : Int) ∣ (Interval.mk 0 16 128 0).start ∧
    (8 : Int) ∣ (Interval.mk 0 16 128 0).stop ∧
    (Interval.mk 0 16 128 0).start ≤ (Interval.mk 0 16 128 0).stop ∧
    hkind (readWord [4, 8] (Interval.mk 0 16 128 0).start) = 4 :=
  newTrace_interval_invariant [4, 8]
    ⟨[4, 8], [[], [⟨0, 16, 128, 0⟩]], 128, 128, 128, 0, 0⟩ rfl
    [⟨0, 16, 128, 0⟩] (by decide) ⟨0, 16, 128, 0⟩ (by decide)

/-- C9 counterexample: for the trace `[Pid(0), Sync(128)]`, `NewTrace`
stores the interval `[0, 16)` for processor 0: the interval's byte range
begins at offset 0 — the `Pid` word itself — and not at offset 16, the
first word after the `Pid`+`Sync` pair, contradicting the claim that an
interval begins immediately after its `Pid`+`Sync` pair. -/
theorem interval_not_after_pid_sync_cex :
    NewTrace [4, 8] = .ok ⟨[4, 8], [[], [⟨0, 16, 128, 0⟩]], 128, 128, 128, 0, 0⟩ ∧
    hkind (readWord [4, 8] 0) = 4 ∧
    ((⟨0, 16, 128, 0⟩ : Interval).start ≠ 16) := by
  refine ⟨rfl, by decide, by decide⟩

/-!  ## Generic bit and list lemmas -/

theorem and_two_pow_eq (n k : Nat) : n &&& 2 ^ k = if n.testBit k then 2 ^ k else 0 := by
  apply Nat.eq_of_testBit_eq
  intro j
  rw [Nat.testBit_and]
  by_cases hjk : j = k
  · subst hjk
    cases h : n.testBit j <;> simp [h, Nat.testBit_two_pow]
  · cases h : n.testBit k <;> simp [h, Nat.testBit_two_pow, Ne.symm hjk, hjk]

theorem sub_two_pow_eq_xor (b k : Nat) (h : b.testBit k = true) :
    b - 2 ^ k = b ^^^ 2 ^ k := by
  have hdm : b / 2 ^ k % 2 = 1 := by
    have ht : b.testBit k = decide (b / 2 ^ k % 2 = 1) := Nat.testBit_to_div_mod
    rw [h] at ht
    exact of_decide_eq_true ht.symm
  have hrlt : b % 2 ^ k < 2 ^ k := Nat.mod_lt _ (Nat.two_pow_pos k)
  have hmod : b % 2 ^ (k + 1) = 2 ^ k + b % 2 ^ k := by
    rw [pow_succ, Nat.mod_mul, hdm]
    ring
  have hb : b = 2 ^ (k + 1) * (b / 2 ^ (k + 1)) + (2 ^ k + b % 2 ^ k) := by
    conv_lhs => rw [← Nat.div_add_mod b (2 ^ (k + 1))]
    rw [hmod]
  have hk1 : (2 : Nat) ^ (k + 1) = 2 * 2 ^ k := by ring
  have hsub : b - 2 ^ k = 2 ^ (k + 1) * (b / 2 ^ (k + 1)) + b % 2 ^ k := by
    rw [hk1] at hb ⊢
    omega
  apply Nat.eq_of_testBit_eq
  intro j
  rw [hsub, Nat.testBit_mul_pow_two_add _ (lt_trans hrlt (by rw [hk1]; omega)) j,
    Nat.testBit_xor]
  conv_rhs =>
    rw [hb, Nat.testBit_mul_pow_two_add _ (show 2 ^ k + b % 2 ^ k < 2 ^ (k + 1) by
      rw [hk1]; omega) j]
  have h2 : (2 ^ k + b % 2 ^ k).testBit j =
      if j < k then (b % 2 ^ k).testBit j else Nat.testBit 1 (j - k) := by
    have := Nat.testBit_mul_pow_two_add 1 hrlt j
    simpa [Nat.mul_comm] using this
  rcases lt_trichotomy j k with hj | rfl | hj
  · rw [if_pos (by omega), if_pos (by omega), h2, if_pos hj,
      Nat.testBit_two_pow, decide_eq_false (by omega : ¬ k = j), Bool.xor_false]
  · rw [if_pos (by omega), if_pos (by omega), h2, if_neg (lt_irrefl j),
      Nat.testBit_two_pow, decide_eq_true (rfl : j = j), Nat.sub_self,
      Nat.testBit_lt_two_pow hrlt]
    simp
  · rw [if_neg (by omega), if_neg (by omega), Nat.testBit_two_pow,
      decide_eq_false (by omega : ¬ k = j), Bool.xor_false]

theorem getD_set_self (l : List Nat) (n v : Nat) (h : n < l.length) :
    (l.set n v).getD n 0 = v := by
  rw [List.getD_eq_getElem?_getD, List.getElem?_set_eq h]
  rfl

theorem getD_set_ne (l : List Nat) (n m v : Nat) (h : n ≠ m) :
    (l.set n v).getD m 0 = l.getD m 0 := by
  rw [List.getD_eq_getElem?_getD, List.getElem?_set_ne h, ← List.getD_eq_getElem?_getD]

theorem set_getD_self (l : List Nat) (n : Nat) : l.set n (l.getD n 0) = l := by
  rcases Nat.lt_or_ge n l.length with h | h
  · apply List.ext_getElem?
    intro m
    by_cases hm : m = n
    · subst hm
      rw [List.getElem?_set_eq h, List.getD_eq_getElem?_getD,
        List.getElem?_eq_getElem h]
      rfl
    · exact List.getElem?_set_ne (fun hx => hm hx.symm)
  · rw [List.set_eq_of_length_le h]

theorem getD_replicate_zero (n j : Nat) : (List.replicate n (0 : Nat)).getD j 0 = 0 := by
  rw [List.getD_eq_getElem?_getD]
  rcases Nat.lt_or_ge j n with h | h
  · rw [List.getElem?_eq_getElem (by simpa using h)]
    simp [List.getElem_replicate]
  · rw [List.getElem?_eq_none (by simpa using h)]
    rfl

theorem getD_append_split (l l' : List Nat) (j : Nat) :
    (l ++ l').getD j 0 = if j < l.length then l.getD j 0 else l'.getD (j - l.length) 0 := by
  split
  · exact List.getD_append _ _ _ _ ‹_›
  · rw [List.getD_eq_getElem?_getD, List.getElem?_append_right (by omega),
      ← List.getD_eq_getElem?_getD]

theorem length_setBitByte (l : List Nat) (i : Nat) :
    (setBitByte l i).length = l.length := by
  simp [setBitByte]

theorem length_clearBitByte (l : List Nat) (i : Nat) :
    (clearBitByte l i).length = l.length := by
  simp [clearBitByte]

theorem bitAt_clearBit_self (l : List Nat) (i : Nat) :
    bitAt (clearBitByte l i) i = false := by
  unfold bitAt clearBitByte
  rcases Nat.lt_or_ge (i / 8) l.length with hlt | hge
  · rw [getD_set_self _ _ _ hlt, and_two_pow_eq]
    cases h : (l.getD (i / 8) 0).testBit (i % 8)
    · rw [if_neg (by simp [h]), Nat.sub_zero]
      exact h
    · rw [if_pos rfl, sub_two_pow_eq_xor _ _ h, Nat.testBit_xor, h,
        Nat.testBit_two_pow]
      simp
  · rw [List.set_eq_of_length_le hge, List.getD_eq_default _ _ hge]
    simp

theorem bitAt_clearBit_ne (l : List Nat) (i j : Nat) (h : j ≠ i) :
    bitAt (clearBitByte l j) i = bitAt l i := by
  unfold bitAt clearBitByte
  by_cases hb : j / 8 = i / 8
  · rw [hb]
    rcases Nat.lt_or_ge (i / 8) l.length with hlt | hge
    · rw [getD_set_self _ _ _ hlt, and_two_pow_eq]
      have hne : ¬ j % 8 = i % 8 := by omega
      cases hbt : (l.getD (i / 8) 0).testBit (j % 8)
      · rw [if_neg (by simp [hbt]), Nat.sub_zero]
      · rw [if_pos rfl, sub_two_pow_eq_xor _ _ hbt, Nat.testBit_xor,
          Nat.testBit_two_pow, decide_eq_false hne, Bool.xor_false]
    · rw [List.set_eq_of_length_le hge]
  · rw [getD_set_ne _ _ _ _ hb]

theorem bitAt_setBit_self (l : List Nat) (i : Nat) (h : i / 8 < l.length) :
    bitAt (setBitByte l i) i = true := by
  unfold bitAt setBitByte
  rw [getD_set_self _ _ _ h, Nat.testBit_or, Nat.testBit_two_pow]
  simp

theorem bitAt_setBit_ne (l : List Nat) (i j : Nat) (h : j ≠ i) :
    bitAt (setBitByte l j) i = bitAt l i := by
  unfold bitAt setBitByte
  by_cases hb : j / 8 = i / 8
  · rw [hb]
    rcases Nat.lt_or_ge (i / 8) l.length with hlt | hge
    · rw [getD_set_self _ _ _ hlt, Nat.testBit_or, Nat.testBit_two_pow]
      have hne : ¬ j % 8 = i % 8 := by omega
      rw [decide_eq_false hne, Bool.or_false]
    · rw [List.set_eq_of_length_le hge]
  · rw [getD_set_ne _ _ _ _ hb]

theorem clearBit_of_bitAt_false (l : List Nat) (i : Nat) (h : bitAt l i = false) :
    clearBitByte l i = l := by
  unfold bitAt at h
  unfold clearBitByte
  rw [and_two_pow_eq, if_neg (by rw [h]; simp), Nat.sub_zero, set_getD_self]

theorem bitAt_clearBit_false (l : List Nat) (i j : Nat) (h : bitAt l i = false) :
    bitAt (clearBitByte l j) i = false := by
  by_cases hji : j = i
  · subst hji
    exact bitAt_clearBit_self l j
  · rw [bitAt_clearBit_ne l i j hji]
    exact h

theorem bitAt_setBit_false (l : List Nat) (i j : Nat) (hne : j ≠ i)
    (h : bitAt l i = false) : bitAt (setBitByte l j) i = false := by
  rw [bitAt_setBit_ne l i j hne]
  exact h

theorem bitAt_append_zeros (l : List Nat) (k i : Nat) :
    bitAt (l ++ List.replicate k 0) i =
      if i / 8 < l.length then bitAt l i else false := by
  unfold bitAt
  rw [getD_append_split]
  split
  · rfl
  · rw [getD_replicate_zero]
    simp

theorem bitAt_prepend_zeros (l : List Nat) (k i : Nat) :
    bitAt (List.replicate k 0 ++ l) i =
      if i / 8 < k then false else bitAt l (i - 8 * k) := by
  unfold bitAt
  rw [getD_append_split]
  simp only [List.length_replicate]
  split
  · rw [getD_replicate_zero]
    simp
  · have h1 : (i - 8 * k) / 8 = i / 8 - k := by omega
    have h2 : (i - 8 * k) % 8 = i % 8 := by omega
    rw [h1, h2]

theorem bitAt_replicate_zero (n i : Nat) : bitAt (List.replicate n 0) i = false := by
  unfold bitAt
  rw [getD_replicate_zero]
  simp

/-!  ## Arithmetic facts about the wrapped `uint64` helpers -/

theorem sub64_add64_left (x y : Nat) (hy : y < U64) : sub64 (add64 x y) x = y := by
  unfold sub64 add64 w64 U64 at *
  omega

theorem sub64_self (x : Nat) : sub64 x x = 0 := by
  unfold sub64 U64
  omega

theorem sub64_eq (x y : Nat) (h1 : y ≤ x) (h2 : x < U64) : sub64 x y = x - y := by
  unfold sub64 U64 at *
  omega

theorem add64_eq (x y : Nat) (h : x + y < U64) : add64 x y = x + y := by
  unfold add64 w64 U64 at *
  omega

theorem w64_eq (x : Nat) (h : x < U64) : w64 x = x := by
  unfold w64 U64 at *
  omega

theorem bitmapSize_le_div (a b : Nat) : bitmapSize a b ≤ sub64 b a / 65536 + 2 := by
  unfold bitmapSize pageSize
  have h1 : alignUp64 (sub64 b a) 8192 ≤ sub64 b a + 8191 := by
    unfold alignUp64 w64 U64
    omega
  have h2 : alignUp64 (alignUp64 (sub64 b a) 8192 / 8192) 8 ≤
      alignUp64 (sub64 b a) 8192 / 8192 + 7 := by
    unfold alignUp64 w64 U64
    omega
  omega

theorem bitmapSize_of_aligned (a b S : Nat) (hS : sub64 b a = S)
    (hdvd : 8192 ∣ S) (hlt : S < U64) : bitmapSize a b = (S / 8192 + 7) / 8 := by
  obtain ⟨k, rfl⟩ := hdvd
  unfold bitmapSize alignUp64 w64 pageSize
  rw [hS]
  unfold U64 at hlt ⊢
  omega

/-!  ## The per-page loop of `State.update` -/

/-- For a `Free` event the loop leaves `scavBits` alone, preserves the
alloc bitmap's length, requires (and establishes) in-bounds indices over
the visited window, clears every visited bit, and never sets a bit. -/
theorem freeLoop_props (iend : Nat) :
    ∀ (fuel i : Nat) (ab sb : List Nat) (r : List Nat × List Nat),
    bitsLoop 2 iend fuel i ab sb = some r →
    r.2 = sb ∧ r.1.length = ab.length ∧
    (∀ j, i ≤ j → j < iend → j < i + fuel → j / 8 < ab.length ∧ bitAt r.1 j = false) ∧
    (∀ j, bitAt ab j = false → bitAt r.1 j = false) := by
  intro fuel
  induction fuel with
  | zero =>
    intro i ab sb r h
    simp only [bitsLoop] at h
    cases h
    exact ⟨rfl, rfl, fun j h1 h2 h3 => absurd h3 (by omega), fun j h => h⟩
  | succ fuel ih =>
    intro i ab sb r h
    simp only [bitsLoop] at h
    by_cases hlt : i < iend
    · rw [if_pos hlt] at h
      by_cases hb : i / 8 < ab.length
      · rw [if_pos hb] at h
        obtain ⟨h2, hlen, hwin, hmono⟩ := ih (i + 1) (clearBitByte ab i) sb r h
        rw [length_clearBitByte] at hlen
        refine ⟨h2, hlen, ?_, ?_⟩
        · intro j hj1 hj2 hj3
          by_cases hji : j = i
          · subst hji
            exact ⟨hb, hmono j (bitAt_clearBit_self ab j)⟩
          · have hw := hwin j (by omega) hj2 (by omega)
            rw [length_clearBitByte] at hw
            exact hw
        · intro j hj
          exact hmono j (bitAt_clearBit_false ab j i hj)
      · rw [if_neg hb] at h
        cases h
    · rw [if_neg hlt] at h
      cases h
      exact ⟨rfl, rfl, fun j h1 h2 h3 => absurd h2 (by omega), fun j h => h⟩

/-- Re-running the `Free` loop on its own output changes nothing. -/
theorem freeLoop_idem (iend : Nat) :
    ∀ (fuel i : Nat) (ab sb : List Nat) (r : List Nat × List Nat),
    bitsLoop 2 iend fuel i ab sb = some r →
    bitsLoop 2 iend fuel i r.1 r.2 = some r := by
  intro fuel
  induction fuel with
  | zero =>
    intro i ab sb r h
    simp only [bitsLoop] at h
    cases h
    simp only [bitsLoop]
  | succ fuel ih =>
    intro i ab sb r h
    simp only [bitsLoop] at h
    by_cases hlt : i < iend
    · rw [if_pos hlt] at h
      by_cases hb : i / 8 < ab.length
      · rw [if_pos hb] at h
        obtain ⟨h2, hlen, hwin, hmono⟩ := freeLoop_props iend fuel (i + 1)
          (clearBitByte ab i) sb r h
        rw [length_clearBitByte] at hlen
        simp only [bitsLoop]
        rw [if_pos hlt, if_pos (by rw [hlen]; exact hb),
          clearBit_of_bitAt_false _ _ (hmono i (bitAt_clearBit_self ab i))]
        exact ih (i + 1) (clearBitByte ab i) sb r h
      · rw [if_neg hb] at h
        cases h
    · rw [if_neg hlt] at h
      cases h
      simp only [bitsLoop, if_neg hlt]

/-- For an `Allocate` event the loop preserves both lengths, requires
in-bounds indices over the visited window, clears the scav bit of every
visited page, and never sets a scav bit. -/
theorem allocLoop_props (iend : Nat) :
    ∀ (fuel i : Nat) (ab sb : List Nat) (r : List Nat × List Nat),
    bitsLoop 1 iend fuel i ab sb = some r →
    r.1.length = ab.length ∧ r.2.length = sb.length ∧
    (∀ j, i ≤ j → j < iend → j < i + fuel →
      j / 8 < ab.length ∧ j / 8 < sb.length ∧ bitAt r.2 j = false) ∧
    (∀ j, bitAt sb j = false → bitAt r.2 j = false) := by
  intro fuel
  induction fuel with
  | zero =>
    intro i ab sb r h
    simp only [bitsLoop] at h
    cases h
    exact ⟨rfl, rfl, fun j h1 h2 h3 => absurd h3 (by omega), fun j h => h⟩
  | succ fuel ih =>
    intro i ab sb r h
    simp only [bitsLoop] at h
    by_cases hlt : i < iend
    · rw [if_pos hlt] at h
      by_cases hb : i / 8 < ab.length ∧ i / 8 < sb.length
      · rw [if_pos hb] at h
        obtain ⟨hla, hls, hwin, hmono⟩ := ih (i + 1) (setBitByte ab i)
          (clearBitByte sb i) r h
        rw [length_setBitByte] at hla
        rw [length_clearBitByte] at hls
        refine ⟨hla, hls, ?_, ?_⟩
        · intro j hj1 hj2 hj3
          by_cases hji : j = i
          · subst hji
            exact ⟨hb.1, hb.2, hmono j (bitAt_clearBit_self sb j)⟩
          · have hw := hwin j (by omega) hj2 (by omega)
            rw [length_setBitByte, length_clearBitByte] at hw
            exact hw
        · intro j hj
          exact hmono j (bitAt_clearBit_false sb j i hj)
      · rw [if_neg hb] at h
        cases h
    · rw [if_neg hlt] at h
      cases h
      exact ⟨rfl, rfl, fun j h1 h2 h3 => absurd h2 (by omega), fun j h => h⟩

/-!  ## Characterizing the bitmap growth of `State.update` -/

theorem maxAddr_small (s : State) (hm : s.minAddr ≤ 2 ^ 48)
    (hl : s.allocBitsL.length ≤ 2 ^ 41) :
    s.MaxAddr = s.minAddr + s.allocBitsL.length * 65536 := by
  unfold State.MaxAddr State.Size add64 w64 pageSize U64 at *
  omega

theorem growAppend_char (s : State) (maxA : Nat) :
    (growAppend s maxA).minAddr = s.minAddr ∧
    (growAppend s maxA).allocBits = some ((growAppend s maxA).allocBitsL) ∧
    (maxA > s.MaxAddr →
      bitmapSize s.minAddr maxA ≤ (growAppend s maxA).allocBitsL.length ∧
      bitmapSize s.minAddr maxA ≤ (growAppend s maxA).scavBits.length) ∧
    (¬ maxA > s.MaxAddr →
      growAppend s maxA = ⟨s.minAddr, some s.allocBitsL, s.scavBits⟩) ∧
    (growAppend s maxA).allocBitsL.length ≤
      max s.allocBitsL.length (bitmapSize s.minAddr maxA) ∧
    (growAppend s maxA).scavBits.length ≤
      max s.scavBits.length (bitmapSize s.minAddr maxA) := by
  unfold growAppend
  by_cases hc : maxA > s.MaxAddr
  · rw [if_pos hc]
    have hkey : ∀ (l : List Nat) (n : Nat),
        n ≤ (if l.length < n then l ++ List.replicate (n - l.length) 0 else l).length ∧
        (if l.length < n then l ++ List.replicate (n - l.length) 0 else l).length ≤
          max l.length n := by
      intro l n
      by_cases h : l.length < n
      · rw [if_pos h]
        simp only [List.length_append, List.length_replicate]
        omega
      · rw [if_neg h]
        omega
    refine ⟨rfl, rfl, fun _ => ⟨?_, ?_⟩, fun hn => absurd hc hn, ?_, ?_⟩
    · simpa [State.allocBitsL, State.MinAddr] using
        (hkey s.allocBitsL (bitmapSize s.minAddr maxA)).1
    · simpa [State.MinAddr] using (hkey s.scavBits (bitmapSize s.minAddr maxA)).1
    · simpa [State.allocBitsL, State.MinAddr] using
        (hkey s.allocBitsL (bitmapSize s.minAddr maxA)).2
    · simpa [State.MinAddr] using (hkey s.scavBits (bitmapSize s.minAddr maxA)).2
  · rw [if_neg hc]
    refine ⟨rfl, rfl, fun hx => absurd hx hc, fun _ => rfl, ?_, ?_⟩ <;>
      simp [State.allocBitsL, le_max_left]

theorem growFront_char (s1 : State) (minA : Nat)
    (hlen : s1.allocBitsL.length ≤ 2 ^ 41) :
    (minA < s1.minAddr →
      growFront s1 minA = ⟨minA, some s1.allocBitsL,
        if s1.scavBits.length < s1.allocBitsL.length then
          List.replicate (s1.allocBitsL.length - s1.scavBits.length) 0 ++ s1.scavBits
        else s1.scavBits⟩) ∧
    (¬ minA < s1.minAddr → growFront s1 minA = s1) := by
  have habL : (⟨minA, s1.allocBits, s1.scavBits⟩ : State).allocBitsL =
      s1.allocBitsL := rfl
  have hsize : bitmapSize (⟨minA, s1.allocBits, s1.scavBits⟩ : State).MinAddr
      (⟨minA, s1.allocBits, s1.scavBits⟩ : State).MaxAddr = s1.allocBitsL.length := by
    have hX : (⟨minA, s1.allocBits, s1.scavBits⟩ : State).Size =
        s1.allocBitsL.length * 65536 := by
      unfold State.Size w64 pageSize U64
      rw [habL]
      omega
    have h1 := bitmapSize_of_aligned minA
      (add64 minA (s1.allocBitsL.length * 65536)) (s1.allocBitsL.length * 65536)
      (sub64_add64_left _ _ (by unfold U64; omega))
      ⟨s1.allocBitsL.length * 8, by ring⟩ (by unfold U64; omega)
    unfold State.MaxAddr State.MinAddr
    rw [hX]
    dsimp only
    rw [h1]
    omega
  simp only [growFront]
  by_cases hc : minA < s1.MinAddr
  · rw [if_pos hc]
    refine ⟨fun _ => ?_, fun h => absurd hc h⟩
    rw [hsize, habL, if_neg (lt_irrefl _)]
  · rw [if_neg hc]
    exact ⟨fun h => absurd h hc, fun _ => rfl⟩

/-- The combined growth characterization used by the `Free`-idempotence
proof.  The range hypotheses say the state and the event live inside the
48-bit heap-address space of the trace format. -/
theorem growState_char (s : State) (e : Event)
    (hB : e.Base ≤ 2 ^ 48) (hS : e.Size ≤ 2 ^ 48) (hm : s.minAddr ≤ 2 ^ 48)
    (hal : s.allocBitsL.length ≤ 2 ^ 40) (hsl : s.scavBits.length ≤ 2 ^ 40) :
    (growState s e).allocBits = some ((growState s e).allocBitsL) ∧
    (growState s e).minAddr ≤ e.Base ∧
    (growState s e).allocBitsL.length ≤ 2 ^ 41 ∧
    (growState s e).scavBits.length ≤ 2 ^ 41 ∧
    ((growState s e).minAddr = e.Base ∧
        (growState s e).allocBitsL.length ≤ (growState s e).scavBits.length
      ∨ (growState s e).minAddr = s.minAddr ∧
          (e.Base + e.Size > s.MaxAddr ∧
            bitmapSize s.minAddr (add64 e.Base e.Size) ≤
              (growState s e).allocBitsL.length ∧
            bitmapSize s.minAddr (add64 e.Base e.Size) ≤
              (growState s e).scavBits.length
          ∨ e.Base + e.Size ≤ s.MaxAddr ∧ growState s e = s)) := by
  have hA : add64 e.Base e.Size = e.Base + e.Size :=
    add64_eq _ _ (by unfold U64; omega)
  have hSz : s.Size = s.allocBitsL.length * 8 * pageSize := by
    unfold State.Size w64 U64 pageSize at *
    omega
  have hMx : s.MaxAddr = s.minAddr + s.allocBitsL.length * 8 * pageSize := by
    unfold State.MaxAddr add64 w64 U64
    rw [hSz]
    unfold pageSize at *
    omega
  have hbm : add64 e.Base e.Size > s.MaxAddr →
      bitmapSize s.minAddr (add64 e.Base e.Size) ≤ 2 ^ 40 := by
    intro hgt
    have h1 := bitmapSize_le_div s.minAddr (add64 e.Base e.Size)
    have hge : s.minAddr ≤ add64 e.Base e.Size := by
      rw [hMx] at hgt
      unfold pageSize at hgt
      omega
    rw [sub64_eq _ _ hge (by rw [hA]; unfold U64; omega)] at h1
    rw [hA] at h1 ⊢
    omega
  cases hsab : s.allocBits with
  | none =>
    have hg : growState s e = ⟨e.Base,
        some (List.replicate (bitmapSize e.Base (add64 e.Base e.Size)) 0),
        List.replicate (bitmapSize e.Base (add64 e.Base e.Size)) 0⟩ := by
      unfold growState
      rw [hsab]
    have hn : bitmapSize e.Base (add64 e.Base e.Size) ≤ 2 ^ 41 := by
      have h1 := bitmapSize_le_div e.Base (add64 e.Base e.Size)
      rw [sub64_add64_left _ _ (by unfold U64; omega)] at h1
      omega
    rw [hg]
    exact ⟨rfl, le_refl _, by simpa [State.allocBitsL] using hn, by simpa using hn,
      Or.inl ⟨rfl, by simp [State.allocBitsL]⟩⟩
  | some ab =>
    have hg : growState s e = growFront (growAppend s (add64 e.Base e.Size)) e.Base := by
      unfold growState
      rw [hsab]
    obtain ⟨hm1, _hsome1, hgrow, hnogrow, hlal, hlsl⟩ :=
      growAppend_char s (add64 e.Base e.Size)
    have hla2 : (growAppend s (add64 e.Base e.Size)).allocBitsL.length ≤ 2 ^ 41 ∧
        (growAppend s (add64 e.Base e.Size)).scavBits.length ≤ 2 ^ 41 := by
      by_cases hc1 : add64 e.Base e.Size > s.MaxAddr
      · have hb := hbm hc1
        constructor <;> omega
      · rw [hnogrow hc1]
        exact ⟨le_trans hal (by norm_num), le_trans hsl (by norm_num)⟩
    have hla := hla2.1
    have hls := hla2.2
    obtain ⟨hfr, hnofr⟩ := growFront_char (growAppend s (add64 e.Base e.Size)) e.Base hla
    by_cases hc2 : e.Base < (growAppend s (add64 e.Base e.Size)).minAddr
    · rw [hg, hfr hc2]
      refine ⟨rfl, le_refl _, hla, ?_, Or.inl ⟨rfl, ?_⟩⟩
      · dsimp only
        split
        · simp only [List.length_append, List.length_replicate]
          omega
        · omega
      · dsimp only [State.allocBitsL, Option.getD_some]
        split
        · simp only [List.length_append, List.length_replicate]
          omega
        · omega
    · rw [hg, hnofr hc2]
      rw [hm1] at hc2
      by_cases hc1 : add64 e.Base e.Size > s.MaxAddr
      · obtain ⟨ha, hb2⟩ := hgrow hc1
        exact ⟨_hsome1, by omega, hla, hls,
          Or.inr ⟨hm1, Or.inl ⟨by rw [← hA]; exact hc1, ha, hb2⟩⟩⟩
      · rw [hnogrow hc1]
        have hseq : (⟨s.minAddr, some s.allocBitsL, s.scavBits⟩ : State) = s := by
          cases s with
          | mk m a b =>
            have hsab2 : a = some ab := hsab
            subst hsab2
            rfl
        rw [hseq]
        refine ⟨?_, by omega, by omega, by omega,
          Or.inr ⟨rfl, Or.inr ⟨by rw [← hA]; omega, rfl⟩⟩⟩
        unfold State.allocBitsL
        rw [hsab]
        rfl

/-- The bitmap allocated for a range covers the range: `bitmapSize a b`
bytes of bitmap describe `bitmapSize a b * 8` pages, i.e.
`bitmapSize a b * 65536` bytes of address space, at least `b - a`. -/
theorem bitmapSize_ge (a b : Nat) (hab : a ≤ b) (hb : b ≤ 2 ^ 49) :
    b - a ≤ bitmapSize a b * 65536 := by
  unfold bitmapSize
  rw [sub64_eq _ _ hab (by unfold U64; omega)]
  unfold alignUp64 w64 pageSize U64
  omega

/-- Rebuilding a state with a non-`nil` bitmap from its projections gives
the state back. -/
theorem state_eta_some (t : State) (ab : List Nat) (h : t.allocBits = some ab) :
    (⟨t.minAddr, some t.allocBitsL, t.scavBits⟩ : State) = t := by
  cases t with
  | mk m a b =>
    have h2 : a = some ab := h
    subst h2
    rfl

/-- If an event extends the tracked range neither above `MaxAddr` nor
below `minAddr`, the growth prologue of `update` leaves the state
unchanged. -/
theorem growState_eq_self (t : State) (e : Event) (ab : List Nat)
    (hsome : t.allocBits = some ab)
    (hlen : t.allocBitsL.length ≤ 2 ^ 41)
    (hng : ¬ add64 e.Base e.Size > t.MaxAddr)
    (hnf : ¬ e.Base < t.minAddr) :
    growState t e = t := by
  obtain ⟨-, -, -, hnogrow2, -, -⟩ := growAppend_char t (add64 e.Base e.Size)
  obtain ⟨-, hnofr2⟩ := growFront_char
    (⟨t.minAddr, some t.allocBitsL, t.scavBits⟩ : State) e.Base hlen
  have hg : growState t e =
      growFront (growAppend t (add64 e.Base e.Size)) e.Base := by
    unfold growState
    rw [hsome]
  rw [hg, hnogrow2 hng, hnofr2 hnf, state_eta_some t ab hsome]

/-- `State.update` written as an explicit match on the per-page loop. -/
theorem update_eq (e : Event) : ∀ t : State, t.update e =
    (match bitsLoop e.Kind
        (sub64 (add64 e.Base e.Size) (growState t e).minAddr / pageSize)
        (sub64 (add64 e.Base e.Size) (growState t e).minAddr / pageSize -
          sub64 e.Base (growState t e).minAddr / pageSize)
        (sub64 e.Base (growState t e).minAddr / pageSize)
        (growState t e).allocBitsL (growState t e).scavBits with
      | none => none
      | some (ab2, sb2) =>
          some (⟨(growState t e).minAddr, some ab2, sb2⟩ : State)) :=
  fun t => rfl

/-- A successful page-aligned `Free` update is idempotent: running
`update` again with the same event returns the same state. -/
theorem update_free_idem (s : State) (e : Event) (s1 : State)
    (hk : e.Kind = 2)
    (hbd : 8192 ∣ e.Base) (hsd : 8192 ∣ e.Size) (hmd : 8192 ∣ s.minAddr)
    (hB : e.Base ≤ 2 ^ 48) (hS : e.Size ≤ 2 ^ 48) (hm : s.minAddr ≤ 2 ^ 48)
    (hal : s.allocBitsL.length ≤ 2 ^ 40) (hsl : s.scavBits.length ≤ 2 ^ 40)
    (h1 : s.update e = some s1) :
    s1.update e = some s1 := by
  have hA : add64 e.Base e.Size = e.Base + e.Size :=
    add64_eq _ _ (by unfold U64; omega)
  obtain ⟨gc1, gc2, gc3, gc4, gc5⟩ := growState_char s e hB hS hm hal hsl
  have hmg : 8192 ∣ (growState s e).minAddr := by
    rcases gc5 with ⟨h, -⟩ | ⟨h, -⟩
    · rw [h]; exact hbd
    · rw [h]; exact hmd
  have hmg48 : (growState s e).minAddr ≤ 2 ^ 48 := le_trans gc2 hB
  have hoff : sub64 e.Base (growState s e).minAddr =
      e.Base - (growState s e).minAddr :=
    sub64_eq _ _ gc2 (by unfold U64; omega)
  have hiend : sub64 (add64 e.Base e.Size) (growState s e).minAddr =
      e.Base + e.Size - (growState s e).minAddr := by
    rw [hA]
    exact sub64_eq _ _ (by omega) (by unfold U64; omega)
  rw [update_eq e s, hk] at h1
  cases hl : bitsLoop 2
      (sub64 (add64 e.Base e.Size) (growState s e).minAddr / pageSize)
      (sub64 (add64 e.Base e.Size) (growState s e).minAddr / pageSize -
        sub64 e.Base (growState s e).minAddr / pageSize)
      (sub64 e.Base (growState s e).minAddr / pageSize)
      (growState s e).allocBitsL (growState s e).scavBits with
  | none =>
    rw [hl] at h1
    exact absurd h1 (by simp)
  | some p =>
    obtain ⟨ab, sb⟩ := p
    rw [hl] at h1
    simp only [Option.some.injEq] at h1
    subst h1
    obtain ⟨hsb, hlen, hwin, -⟩ := freeLoop_props _ _ _ _ _ _ hl
    dsimp only at hsb hlen hwin
    have hab41 : ab.length ≤ 2 ^ 41 := by rw [hlen]; exact gc3
    have hfit : e.Base + e.Size ≤ (growState s e).minAddr +
        (growState s e).allocBitsL.length * 65536 := by
      unfold pageSize at hwin
      rw [hoff, hiend] at hwin
      by_cases hoi : (e.Base - (growState s e).minAddr) / 8192 <
          (e.Base + e.Size - (growState s e).minAddr) / 8192
      · obtain ⟨hj, -⟩ := hwin
          ((e.Base + e.Size - (growState s e).minAddr) / 8192 - 1)
          (by omega) (by omega) (by omega)
        omega
      · have hS0 : e.Size = 0 := by omega
        rcases gc5 with ⟨hmeq, -⟩ | ⟨hmeq, ⟨hgt, hba, -⟩ | ⟨hle2, hgeq⟩⟩
        · omega
        · have hmax := maxAddr_small s hm (le_trans hal (by norm_num))
          have hbs := bitmapSize_ge s.minAddr (add64 e.Base e.Size)
            (by omega) (by omega)
          omega
        · have hmax := maxAddr_small s hm (le_trans hal (by norm_num))
          rw [hgeq]
          omega
    have hmax1 : (⟨(growState s e).minAddr, some ab, sb⟩ : State).MaxAddr =
        (growState s e).minAddr + ab.length * 65536 := by
      have h0 := maxAddr_small
        (⟨(growState s e).minAddr, some ab, sb⟩ : State) hmg48 hab41
      simpa [State.allocBitsL] using h0
    have hg2 : growState (⟨(growState s e).minAddr, some ab, sb⟩ : State) e =
        ⟨(growState s e).minAddr, some ab, sb⟩ := by
      refine growState_eq_self _ e ab rfl ?_ ?_ ?_
      · exact hab41
      · rw [hmax1]
        omega
      · exact (by omega : ¬ e.Base < (growState s e).minAddr)
    have hidem := freeLoop_idem _ _ _ _ _ _ hl
    dsimp only at hidem
    rw [update_eq e, hg2, hk]
    dsimp only
    simp only [State.allocBitsL, Option.getD_some]
    rw [hidem]

/-- C8: a `Free` event fed twice in a row gives the same simulator state
as feeding it once — provided the event is page-aligned and the tracked
range is page-aligned and within the 48-bit heap address space.  (Without
page alignment the claim fails: see the unaligned counterexample, where
the second `Feed` regrows the bitmap.)  The second `Feed` changes neither
the bitmaps, the tracked range, nor the clock. -/
theorem free_feed_idempotent (sim : Simulator) (e : Event) (sim1 : Simulator)
    (hk : e.Kind = 2)
    (hbd : 8192 ∣ e.Base) (hsd : 8192 ∣ e.Size)
    (hmd : 8192 ∣ sim.state.minAddr)
    (hB : e.Base ≤ 2 ^ 48) (hS : e.Size ≤ 2 ^ 48)
    (hm : sim.state.minAddr ≤ 2 ^ 48)
    (hal : sim.state.allocBitsL.length ≤ 2 ^ 40)
    (hsl : sim.state.scavBits.length ≤ 2 ^ 40)
    (h1 : sim.Feed e = some sim1) :
    sim1.Feed e = some sim1 := by
  unfold Simulator.Feed at h1 ⊢
  cases hu : sim.state.update e with
  | none =>
    rw [hu] at h1
    exact absurd h1 (by simp)
  | some st =>
    rw [hu] at h1
    simp only [Option.map_some', Option.some.injEq] at h1
    subst h1
    have h2 := update_free_idem sim.state e st hk hbd hsd hmd hB hS hm hal hsl hu
    dsimp only
    rw [h2]
    rfl

/-- Witness for `free_feed_idempotent` at a concrete aligned `Free`. -/
theorem free_feed_idempotent_witness :
    Simulator.Feed (⟨0, ⟨0, some [0], [0]⟩⟩ : Simulator) ⟨2, -1, 0, 0, 8192⟩ =
        some (⟨0, ⟨0, some [0], [0]⟩⟩ : Simulator) ∧
    Simulator.Feed (⟨0, ⟨0, some [0], [0]⟩⟩ : Simulator) ⟨2, -1, 0, 0, 8192⟩ =
        some (⟨0, ⟨0, some [0], [0]⟩⟩ : Simulator) :=
  ⟨by decide, free_feed_idempotent ⟨0, ⟨0, some [0], [0]⟩⟩ ⟨2, -1, 0, 0, 8192⟩
    ⟨0, ⟨0, some [0], [0]⟩⟩ rfl (by decide) (by decide) (by decide) (by decide)
    (by decide) (by decide) (by decide) (by decide) (by decide)⟩

/-- Feeding the unaligned free `Free(0, 65537)` twice from a state
tracking `[8192, 73728)` is not idempotent: the second `Feed` appends a
bitmap byte, so the claim as stated (for every state and every `Free`
event) is false. -/
theorem free_not_idempotent_unaligned :
    Simulator.Feed (⟨0, ⟨8192, some [255], [0]⟩⟩ : Simulator)
        ⟨2, -1, 5, 0, 65537⟩ = some (⟨5, ⟨0, some [0], [0]⟩⟩ : Simulator) ∧
    Simulator.Feed (⟨5, ⟨0, some [0], [0]⟩⟩ : Simulator) ⟨2, -1, 5, 0, 65537⟩ =
        some (⟨5, ⟨0, some [0, 0], [0, 0]⟩⟩ : Simulator) ∧
    (⟨5, ⟨0, some [0, 0], [0, 0]⟩⟩ : Simulator) ≠
      (⟨5, ⟨0, some [0], [0]⟩⟩ : Simulator) :=
  ⟨by decide, by decide, by decide⟩

/-- C3: after a successful page-aligned `Allocate` update, every address
in `[base, base+size)` reads as not scavenged — the per-page loop clears
the scav bit of every page it visits.  (The other half of the claim, that
alloc and scav bits never overlap on any reachable state, is false:
`Scavenge` does not clear the alloc bit, see the overlap counterexample.) -/
theorem alloc_clears_scav (s : State) (e : Event) (s1 : State) (a : Nat)
    (hk : e.Kind = 1)
    (hbd : 8192 ∣ e.Base) (hsd : 8192 ∣ e.Size) (hmd : 8192 ∣ s.minAddr)
    (hB : e.Base ≤ 2 ^ 48) (hS : e.Size ≤ 2 ^ 48) (hm : s.minAddr ≤ 2 ^ 48)
    (hal : s.allocBitsL.length ≤ 2 ^ 40) (hsl : s.scavBits.length ≤ 2 ^ 40)
    (h1 : s.update e = some s1)
    (ha1 : e.Base ≤ a) (ha2 : a < e.Base + e.Size) :
    s1.IsScavenged a = false := by
  have hA : add64 e.Base e.Size = e.Base + e.Size :=
    add64_eq _ _ (by unfold U64; omega)
  obtain ⟨gc1, gc2, gc3, gc4, gc5⟩ := growState_char s e hB hS hm hal hsl
  have hmg : 8192 ∣ (growState s e).minAddr := by
    rcases gc5 with ⟨h, -⟩ | ⟨h, -⟩
    · rw [h]; exact hbd
    · rw [h]; exact hmd
  have hoff : sub64 e.Base (growState s e).minAddr =
      e.Base - (growState s e).minAddr :=
    sub64_eq _ _ gc2 (by unfold U64; omega)
  have hiend : sub64 (add64 e.Base e.Size) (growState s e).minAddr =
      e.Base + e.Size - (growState s e).minAddr := by
    rw [hA]
    exact sub64_eq _ _ (by omega) (by unfold U64; omega)
  rw [update_eq e s, hk] at h1
  cases hl : bitsLoop 1
      (sub64 (add64 e.Base e.Size) (growState s e).minAddr / pageSize)
      (sub64 (add64 e.Base e.Size) (growState s e).minAddr / pageSize -
        sub64 e.Base (growState s e).minAddr / pageSize)
      (sub64 e.Base (growState s e).minAddr / pageSize)
      (growState s e).allocBitsL (growState s e).scavBits with
  | none =>
    rw [hl] at h1
    exact absurd h1 (by simp)
  | some p =>
    obtain ⟨ab, sb⟩ := p
    rw [hl] at h1
    simp only [Option.some.injEq] at h1
    subst h1
    obtain ⟨hla, -, hwin, -⟩ := allocLoop_props _ _ _ _ _ _ hl
    dsimp only at hla hwin
    unfold pageSize at hwin
    rw [hoff, hiend] at hwin
    have hab41 : ab.length ≤ 2 ^ 41 := by rw [hla]; exact gc3
    have hfit : e.Base + e.Size ≤ (growState s e).minAddr +
        (growState s e).allocBitsL.length * 65536 := by
      obtain ⟨hj, -, -⟩ := hwin
        ((e.Base + e.Size - (growState s e).minAddr) / 8192 - 1)
        (by omega) (by omega) (by omega)
      omega
    have hmax1 : (⟨(growState s e).minAddr, some ab, sb⟩ : State).MaxAddr =
        (growState s e).minAddr + ab.length * 65536 := by
      have h0 := maxAddr_small (⟨(growState s e).minAddr, some ab, sb⟩ : State)
        (le_trans gc2 hB) hab41
      simpa [State.allocBitsL] using h0
    have hnr : ¬ (a < (⟨(growState s e).minAddr, some ab, sb⟩ : State).MinAddr ∨
        a ≥ (⟨(growState s e).minAddr, some ab, sb⟩ : State).MaxAddr) := by
      rw [hmax1]
      dsimp only [State.MinAddr]
      rw [not_or]
      exact ⟨by omega, by omega⟩
    unfold State.IsScavenged
    rw [if_neg hnr]
    dsimp only
    have hsuba : sub64 a (growState s e).minAddr =
        a - (growState s e).minAddr :=
      sub64_eq _ _ (by omega) (by unfold U64; omega)
    rw [hsuba]
    unfold pageSize
    obtain ⟨-, -, hbit⟩ := hwin ((a - (growState s e).minAddr) / 8192)
      (by omega) (by omega) (by omega)
    exact hbit

/-- Witness for `alloc_clears_scav`: allocating page 0 clears its scav
bit. -/
theorem alloc_clears_scav_witness :
    State.update (⟨0, some [0], [1]⟩ : State) ⟨1, -1, 0, 0, 8192⟩ =
        some (⟨0, some [1], [0]⟩ : State) ∧
    State.IsScavenged (⟨0, some [1], [0]⟩ : State) 0 = false :=
  ⟨by decide, alloc_clears_scav ⟨0, some [0], [1]⟩ ⟨1, -1, 0, 0, 8192⟩
    ⟨0, some [1], [0]⟩ 0 rfl (by decide) (by decide) (by decide) (by decide)
    (by decide) (by decide) (by decide) (by decide) (by decide) (by decide)
    (by decide)⟩

/-- Front growth never makes the alloc bitmap `nil`. -/
theorem growFront_some (s1 : State) (minA : Nat) (l : List Nat)
    (h : s1.allocBits = some l) :
    (growFront s1 minA).allocBits = some ((growFront s1 minA).allocBitsL) := by
  unfold growFront
  dsimp only
  split
  · rfl
  · unfold State.allocBitsL
    rw [h]
    rfl

/-- The growth prologue of `update` always produces a non-`nil` alloc
bitmap. -/
theorem growState_some (s : State) (e : Event) :
    (growState s e).allocBits = some ((growState s e).allocBitsL) := by
  unfold growState
  cases hsab : s.allocBits with
  | none => rfl
  | some ab =>
    dsimp only
    exact growFront_some _ _ _ (growAppend_char s (add64 e.Base e.Size)).2.1

/-- For any kind other than Allocate/Free/Scavenge the per-page loop
returns its bitmaps unchanged on its first iteration (and never fails). -/
theorem bitsLoop_other (kind iend : Nat)
    (hk1 : kind ≠ 1) (hk2 : kind ≠ 2) (hk3 : kind ≠ 3) :
    ∀ (fuel i : Nat) (ab sb : List Nat),
    bitsLoop kind iend fuel i ab sb = some (ab, sb) := by
  intro fuel i ab sb
  cases fuel with
  | zero => simp only [bitsLoop]
  | succ fuel =>
    simp only [bitsLoop]
    by_cases h : i < iend
    · rw [if_pos h]
    · rw [if_neg h]

/-- C4: feeding an event whose kind is not Allocate, Free or Scavenge
(e.g. the Bad kind) never fails, and the per-page loop is skipped: the
resulting state is exactly the bitmap-growth prologue `growState` applied
to the old state.  (The claim that the state is fully unchanged is false:
the growth prologue runs before the kind switch, so a Bad event can still
grow the bitmap and change `Size`, `MaxAddr` and out-of-range reads — see
the Bad-event counterexample.) -/
theorem feed_other_kind (sim : Simulator) (e : Event)
    (h1 : e.Kind ≠ 1) (h2 : e.Kind ≠ 2) (h3 : e.Kind ≠ 3) :
    sim.Feed e = some ⟨e.Time, growState sim.state e⟩ := by
  unfold Simulator.Feed
  rw [update_eq e, bitsLoop_other e.Kind _ h1 h2 h3]
  dsimp only
  rw [state_eta_some _ _ (growState_some sim.state e)]
  rfl

/-- Witness for `feed_other_kind` on a Bad event fed to the empty
simulator. -/
theorem feed_other_kind_witness :
    (⟨0, -1, 7, 0, 8192⟩ : Event).Kind ≠ 1 ∧
    Simulator.Feed emptySim ⟨0, -1, 7, 0, 8192⟩ =
      some ⟨7, growState emptySim.state ⟨0, -1, 7, 0, 8192⟩⟩ :=
  ⟨by decide, feed_other_kind emptySim ⟨0, -1, 7, 0, 8192⟩ (by decide)
    (by decide) (by decide)⟩

/-- The `Allocated` summation loop returns 0 when started at or past its
end bound. -/
theorem allocLoop_stop (s : State) (B S iend : Nat) :
    ∀ (fuel i : Nat), iend ≤ i → allocLoop s B S iend fuel i = 0 := by
  intro fuel i h
  cases fuel with
  | zero => rfl
  | succ f =>
    simp only [allocLoop]
    rw [if_neg (by omega)]

/-- Each visited page contributes at most one page of bytes, so the
`Allocated` sum over `[i, iend)` is at most `iend - i` when the window is
page-aligned and inside `[B, B+S)`. -/
theorem allocLoop_le (s : State) (B S : Nat) (hBS : B + S ≤ 2 ^ 49)
    (hA : add64 B S = B + S) :
    ∀ (fuel i iend : Nat), B ≤ i → iend ≤ B + S → 8192 ∣ (iend - i) →
    allocLoop s B S iend fuel i ≤ iend - i := by
  intro fuel
  induction fuel with
  | zero =>
    intro i iend hBi hie hdvd
    simp only [allocLoop]
    omega
  | succ f ih =>
    intro i iend hBi hie hdvd
    simp only [allocLoop]
    by_cases h : i < iend
    · rw [if_pos h]
      have ha8 : add64 i pageSize = i + 8192 := by
        unfold add64 w64 pageSize U64
        omega
      have hc8 : (if s.IsAllocated i then pageContrib B S i else 0) ≤ 8192 := by
        split
        · unfold pageContrib
          rw [if_neg (by omega)]
          split
          · rename_i h2
            rw [ha8, hA] at h2
            rw [hA, sub64_eq _ _ (by omega) (by unfold U64; omega)]
            omega
          · unfold pageSize
            omega
        · omega
      have hrec := ih (i + pageSize) iend (by unfold pageSize; omega) hie
        (by unfold pageSize at *; omega)
      unfold pageSize at hrec
      unfold pageSize
      omega
    · rw [if_neg h]
      omega

/-- Over a page-aligned window `[i, i + 8192*k)` that lies inside
`[B, B+S)`, every visited page contributes exactly one full page, so the
`Allocated` sum is at most `8192*k`, with equality exactly when every one
of the `k` pages is allocated. -/
theorem allocLoop_pages (s : State) (B S : Nat) (hBS : B + S ≤ 2 ^ 49)
    (hA : add64 B S = B + S) :
    ∀ (k fuel i : Nat), k ≤ fuel → B ≤ i → i + 8192 * k ≤ B + S →
    allocLoop s B S (i + 8192 * k) fuel i ≤ 8192 * k ∧
    (allocLoop s B S (i + 8192 * k) fuel i = 8192 * k ↔
      ∀ j, j < k → s.IsAllocated (i + 8192 * j) = true) := by
  intro k
  induction k with
  | zero =>
    intro fuel i hkf hBi hle
    have h0 : allocLoop s B S (i + 8192 * 0) fuel i = 0 :=
      allocLoop_stop s B S _ fuel i (by omega)
    rw [h0]
    refine ⟨by omega, ?_, fun _ => by omega⟩
    intro _ j hj
    exact absurd hj (by omega)
  | succ k ih =>
    intro fuel i hkf hBi hle
    obtain ⟨f, rfl⟩ : ∃ f, fuel = f + 1 := ⟨fuel - 1, by omega⟩
    have hif : i < i + 8192 * (k + 1) := by omega
    have ha8 : add64 i pageSize = i + 8192 := by
      unfold add64 w64 pageSize U64
      omega
    have hpc : pageContrib B S i = pageSize := by
      unfold pageContrib
      rw [if_neg (by omega), if_neg (by rw [ha8, hA]; omega)]
    have hstep : allocLoop s B S (i + 8192 * (k + 1)) (f + 1) i =
        (if s.IsAllocated i then pageSize else 0) +
          allocLoop s B S (i + 8192 * (k + 1)) f (i + pageSize) := by
      simp only [allocLoop]
      rw [if_pos hif, hpc]
    have hre : i + 8192 * (k + 1) = (i + pageSize) + 8192 * k := by
      unfold pageSize
      omega
    rw [hre] at hstep
    obtain ⟨ih1, ih2⟩ := ih f (i + pageSize) (by omega)
      (by unfold pageSize; omega) (by unfold pageSize; omega)
    rw [hre, hstep]
    have hcases : (if s.IsAllocated i then pageSize else 0) = 8192 ∧
          s.IsAllocated i = true ∨
        (if s.IsAllocated i then pageSize else 0) = 0 ∧
          s.IsAllocated i = false := by
      cases hAI : s.IsAllocated i with
      | false => exact Or.inr ⟨by simp, rfl⟩
      | true => exact Or.inl ⟨by simp [pageSize], rfl⟩
    rcases hcases with ⟨hc, hAI⟩ | ⟨hc, hAI⟩
    · rw [hc]
      refine ⟨by omega, ?_, ?_⟩
      · intro he j hj
        have hrec : allocLoop s B S (i + pageSize + 8192 * k) f (i + pageSize) =
            8192 * k := by omega
        rcases j with _ | j2
        · simpa using hAI
        · have h2 := ih2.mp hrec j2 (by omega)
          rw [show i + pageSize + 8192 * j2 = i + 8192 * (j2 + 1) from by
            unfold pageSize; omega] at h2
          exact h2
      · intro hall
        have hrec := ih2.mpr ?_
        · omega
        · intro j hj
          have h2 := hall (j + 1) (by omega)
          rw [show i + 8192 * (j + 1) = i + pageSize + 8192 * j from by
            unfold pageSize; omega] at h2
          exact h2
    · rw [hc]
      refine ⟨by omega, ?_, ?_⟩
      · intro he
        exact absurd he (by omega)
      · intro hall
        have h0 := hall 0 (by omega)
        rw [show i + 8192 * 0 = i from by omega, hAI] at h0
        exact absurd h0 (by simp)

/-- In the tracked range, `IsAllocated` reads bit `(a - minAddr) / 8192`
of the alloc bitmap. -/
theorem isAllocated_in_range (s : State) (a : Nat)
    (hm : s.minAddr ≤ 2 ^ 48) (hal : s.allocBitsL.length ≤ 2 ^ 40)
    (h1 : s.minAddr ≤ a)
    (h2 : a < s.minAddr + s.allocBitsL.length * 65536)
    (ha64 : a < 2 ^ 49) :
    s.IsAllocated a = bitAt s.allocBitsL ((a - s.minAddr) / 8192) := by
  unfold State.IsAllocated
  rw [if_neg ?_]
  · dsimp only
    rw [sub64_eq _ _ h1 (by unfold U64; omega)]
    unfold pageSize bitAt
    rfl
  · rw [not_or, maxAddr_small s hm (le_trans hal (by norm_num))]
    dsimp only [State.MinAddr]
    exact ⟨by omega, by omega⟩

/-- Out-of-range addresses are never allocated. -/
theorem isAllocated_out_range (s : State) (a : Nat)
    (h : a < s.MinAddr ∨ a ≥ s.MaxAddr) : s.IsAllocated a = false := by
  unfold State.IsAllocated
  rw [if_pos h]

/-- `State.Allocated` written out with its clamped bounds. -/
theorem allocated_eq (s : State) (B S : Nat) : s.Allocated B S =
    allocLoop s B S
      (if alignUp64 (add64 B S) pageSize > s.MaxAddr then s.MaxAddr
        else alignUp64 (add64 B S) pageSize)
      (((if alignUp64 (add64 B S) pageSize > s.MaxAddr then s.MaxAddr
          else alignUp64 (add64 B S) pageSize) -
        (if alignDown64 B pageSize < s.MinAddr then s.MinAddr
          else alignDown64 B pageSize)) / pageSize + 1)
      (if alignDown64 B pageSize < s.MinAddr then s.MinAddr
        else alignDown64 B pageSize) := rfl

/-- For a page-aligned query over a page-aligned tracked range,
`Allocated(B, S)` returns exactly `S` iff every address in `[B, B+S)` is
allocated: clamping truncates the sum below `S` whenever part of the
queried range lies outside the tracked range, and inside the range each
page contributes a full page exactly when its bit is set. -/
theorem allocated_eq_iff (s : State) (B S : Nat)
    (hbd : 8192 ∣ B) (hsd : 8192 ∣ S) (hmd : 8192 ∣ s.minAddr)
    (hB : B ≤ 2 ^ 48) (hS : S ≤ 2 ^ 48) (hm : s.minAddr ≤ 2 ^ 48)
    (hal : s.allocBitsL.length ≤ 2 ^ 40) :
    (s.Allocated B S = S ↔
      ∀ a, B ≤ a → a < B + S → s.IsAllocated a = true) := by
  have hA : add64 B S = B + S := add64_eq _ _ (by unfold U64; omega)
  have hmax := maxAddr_small s hm (le_trans hal (by norm_num))
  have hstart0 : alignDown64 B pageSize = B := by
    unfold alignDown64 w64 pageSize U64
    omega
  have hiend0 : alignUp64 (add64 B S) pageSize = B + S := by
    rw [hA]
    unfold alignUp64 w64 pageSize U64
    omega
  rw [allocated_eq, hstart0, hiend0, hmax]
  dsimp only [State.MinAddr]
  unfold pageSize
  by_cases hc1 : B < s.minAddr
  · rw [if_pos hc1]
    by_cases hiu : B + S > s.minAddr + s.allocBitsL.length * 65536
    · rw [if_pos hiu]
      by_cases hS0 : S = 0
      · exact absurd hiu (by omega)
      · constructor
        · intro he
          have hle2 := allocLoop_le s B S (by omega) hA
            ((s.minAddr + s.allocBitsL.length * 65536 - s.minAddr) / 8192 + 1)
            s.minAddr (s.minAddr + s.allocBitsL.length * 65536)
            (by omega) (by omega) (by omega)
          exact absurd he (by omega)
        · intro hall
          have hB0 := hall B (le_refl B) (by omega)
          rw [isAllocated_out_range s B (Or.inl hc1)] at hB0
          exact absurd hB0 (by simp)
    · rw [if_neg hiu]
      by_cases hS0 : S = 0
      · have h0 := allocLoop_stop s B S (B + S)
          ((B + S - s.minAddr) / 8192 + 1) s.minAddr (by omega)
        rw [h0]
        constructor
        · intro _ a h1a h2a
          exact absurd h2a (by omega)
        · intro _
          omega
      · constructor
        · intro he
          have hle2 := allocLoop_le s B S (by omega) hA
            ((B + S - s.minAddr) / 8192 + 1) s.minAddr (B + S)
            (by omega) (by omega) (by omega)
          exact absurd he (by omega)
        · intro hall
          have hB0 := hall B (le_refl B) (by omega)
          rw [isAllocated_out_range s B (Or.inl hc1)] at hB0
          exact absurd hB0 (by simp)
  · rw [if_neg hc1]
    by_cases hiu : B + S > s.minAddr + s.allocBitsL.length * 65536
    · rw [if_pos hiu]
      by_cases hS0 : S = 0
      · have h0 := allocLoop_stop s B S
          (s.minAddr + s.allocBitsL.length * 65536)
          ((s.minAddr + s.allocBitsL.length * 65536 - B) / 8192 + 1) B
          (by omega)
        rw [h0]
        constructor
        · intro _ a h1a h2a
          exact absurd h2a (by omega)
        · intro _
          omega
      · constructor
        · intro he
          have hle2 := allocLoop_le s B S (by omega) hA
            ((s.minAddr + s.allocBitsL.length * 65536 - B) / 8192 + 1) B
            (s.minAddr + s.allocBitsL.length * 65536)
            (le_refl B) (by omega) (by omega)
          exact absurd he (by omega)
        · intro hall
          have ha0 : s.IsAllocated
              (max B (s.minAddr + s.allocBitsL.length * 65536)) = false :=
            isAllocated_out_range s _
              (Or.inr (by rw [hmax]; exact le_max_right _ _))
          have hba := hall (max B (s.minAddr + s.allocBitsL.length * 65536))
            (le_max_left _ _) (by omega)
          rw [ha0] at hba
          exact absurd hba (by simp)
    · rw [if_neg hiu]
      rw [show B + S = B + 8192 * (S / 8192) from by omega]
      obtain ⟨-, hp2⟩ := allocLoop_pages s B S (by omega) hA (S / 8192)
        ((B + 8192 * (S / 8192) - B) / 8192 + 1) B (by omega) (le_refl B)
        (by omega)
      constructor
      · intro he a h1a h2a
        have hpages := hp2.mp (by omega)
        have hj := hpages ((a - B) / 8192) (by omega)
        have hIa := isAllocated_in_range s a hm hal (by omega) (by omega)
          (by omega)
        have hIb := isAllocated_in_range s (B + 8192 * ((a - B) / 8192)) hm hal
          (by omega) (by omega) (by omega)
        rw [hIa, show (a - s.minAddr) / 8192 =
          (B + 8192 * ((a - B) / 8192) - s.minAddr) / 8192 from by omega, ← hIb]
        exact hj
      · intro hall
        have h8 := hp2.mpr (fun j hj => hall (B + 8192 * j) (by omega) (by omega))
        omega

/-- C7: for a page-aligned, in-order Free event over a page-aligned
tracked range, `Validate` returns no error exactly when every address in
`[base, base+size)` is allocated, and returns the double-free error
whenever some page of the range is not allocated. -/
theorem validate_free_char (sim : Simulator) (e : Event)
    (hk : e.Kind = 2)
    (hbd : 8192 ∣ e.Base) (hsd : 8192 ∣ e.Size)
    (hmd : 8192 ∣ sim.state.minAddr)
    (hB : e.Base ≤ 2 ^ 48) (hS : e.Size ≤ 2 ^ 48)
    (hm : sim.state.minAddr ≤ 2 ^ 48)
    (hal : sim.state.allocBitsL.length ≤ 2 ^ 40)
    (horder : sim.clock ≤ e.Time) :
    (sim.Validate e = none ↔
      ∀ a, e.Base ≤ a → a < e.Base + e.Size →
        sim.state.IsAllocated a = true) ∧
    (¬ (∀ a, e.Base ≤ a → a < e.Base + e.Size →
        sim.state.IsAllocated a = true) →
      sim.Validate e = some VErr.doubleFree) := by
  have key := allocated_eq_iff sim.state e.Base e.Size hbd hsd hmd hB hS hm hal
  have hval : sim.Validate e =
      (if sim.state.Allocated e.Base e.Size ≠ e.Size then some VErr.doubleFree
        else none) := by
    unfold Simulator.Validate
    rw [hk]
    rw [if_neg (by decide)]
    rw [if_neg (by unfold pageSize; omega)]
    rw [if_neg (by unfold pageSize; omega)]
    rw [if_neg (by omega)]
    rw [if_neg (by decide)]
    rw [if_pos rfl]
  constructor
  · rw [hval]
    constructor
    · intro hnone
      by_cases hd : sim.state.Allocated e.Base e.Size = e.Size
      · exact key.mp hd
      · rw [if_pos hd] at hnone
        exact absurd hnone (by simp)
    · intro hall
      rw [if_neg (not_not_intro (key.mpr hall))]
  · intro hnall
    rw [hval, if_pos (fun h => hnall (key.mp h))]

/-- Witness for `validate_free_char`: freeing the single allocated page
of a fully-allocated range validates with no error. -/
theorem validate_free_char_witness :
    (8192 : Nat) ∣ 8192 ∧
    ((Simulator.Validate (⟨0, ⟨0, some [1], [0]⟩⟩ : Simulator)
        ⟨2, -1, 0, 0, 8192⟩ = none ↔
      ∀ a, 0 ≤ a → a < 0 + 8192 →
        State.IsAllocated (⟨0, some [1], [0]⟩ : State) a = true) ∧
    (¬ (∀ a, 0 ≤ a → a < 0 + 8192 →
        State.IsAllocated (⟨0, some [1], [0]⟩ : State) a = true) →
      Simulator.Validate (⟨0, ⟨0, some [1], [0]⟩⟩ : Simulator)
        ⟨2, -1, 0, 0, 8192⟩ = some VErr.doubleFree)) :=
  ⟨by decide, validate_free_char ⟨0, ⟨0, some [1], [0]⟩⟩ ⟨2, -1, 0, 0, 8192⟩
    rfl (by decide) (by decide) (by decide) (by decide) (by decide)
    (by decide) (by decide) (by decide)⟩

/-- With a tracked range that is not page-aligned (`minAddr = 4096`),
`Validate` accepts a Free whose range contains non-allocated addresses:
the per-page grid is `minAddr`-relative, so the claim as stated over an
arbitrary current state fails. -/
theorem validate_free_unaligned_state_cex :
    Simulator.Validate (⟨0, ⟨4096, some [1], []⟩⟩ : Simulator)
        ⟨2, -1, 0, 8192, 8192⟩ = none ∧
    (8192 : Nat) ≤ 12288 ∧ (12288 : Nat) < 8192 + 8192 ∧
    State.IsAllocated (⟨4096, some [1], []⟩ : State) 12288 = false :=
  ⟨by decide, by decide, by decide, by decide⟩

/-- `List.set`/`getD` at the written index (any element type). -/
theorem getD_set_self2 {α : Type} (l : List α) (n : Nat) (v d : α)
    (h : n < l.length) : (l.set n v).getD n d = v := by
  rw [List.getD_eq_getElem?_getD, List.getElem?_set_eq h]
  rfl

/-- `List.set`/`getD` at a different index (any element type). -/
theorem getD_set_ne2 {α : Type} (l : List α) (n m : Nat) (v d : α)
    (h : n ≠ m) : (l.set n v).getD m d = l.getD m d := by
  rw [List.getD_eq_getElem?_getD, List.getElem?_set_ne h,
    ← List.getD_eq_getElem?_getD]

/-- `int64` subtraction is plain subtraction when the difference fits in
the non-negative signed range. -/
theorem subI_eq (a b : Int) (h1 : 0 ≤ a - b) (h2 : a - b < 2 ^ 63) :
    subI a b = a - b := by
  unfold subI i64
  omega

/-- Event base addresses are page-aligned: `base()` clears the low 13
bits. -/
theorem hbase_dvd (u : Nat) : 8192 ∣ hbase u := by
  unfold hbase w64 U64
  omega

/-- Event sizes are page-aligned: `pageSize * npages` in `uint64`
arithmetic. -/
theorem sizeField_dvd (n : Nat) : 8192 ∣ w64 (pageSize * n) := by
  unfold w64 pageSize U64
  omega

/-- The minimum-timestamp scan: its result is either the initial
accumulator or the reconstructed timestamp of some pending event, it
never exceeds the accumulator, and it is a lower bound on every active
pending timestamp. -/
theorem selLoop_spec (clks : List Int) :
    ∀ (l : List PEv) (i0 : Nat) (acc : Int × Nat × PEv),
    (selLoop clks l i0 acc = acc ∨
      ∃ j, j < l.length ∧ (l.getD j ⟨0, 0⟩).hdr ≠ 0 ∧
        selLoop clks l i0 acc =
          (addI (clks.getD (i0 + j) 0) (htimestampDelta (l.getD j ⟨0, 0⟩).hdr),
            i0 + j, l.getD j ⟨0, 0⟩)) ∧
    (selLoop clks l i0 acc).1 ≤ acc.1 ∧
    (∀ j, j < l.length → (l.getD j ⟨0, 0⟩).hdr ≠ 0 →
      (selLoop clks l i0 acc).1 ≤
        addI (clks.getD (i0 + j) 0) (htimestampDelta (l.getD j ⟨0, 0⟩).hdr)) := by
  intro l
  induction l with
  | nil =>
    intro i0 acc
    refine ⟨Or.inl rfl, le_refl _, ?_⟩
    intro j hj
    exact absurd hj (by simp)
  | cons e rest ih =>
    intro i0 acc
    simp only [selLoop]
    by_cases h0 : e.hdr = 0
    · rw [if_pos h0]
      obtain ⟨hsel, hle, hmin⟩ := ih (i0 + 1) acc
      refine ⟨?_, hle, ?_⟩
      · rcases hsel with h | ⟨j, hjl, hja, hjv⟩
        · exact Or.inl h
        · refine Or.inr ⟨j + 1, by simpa using (by omega : j < rest.length), ?_, ?_⟩
          · simpa [List.getD_cons_succ] using hja
          · simpa [List.getD_cons_succ,
              show i0 + (j + 1) = i0 + 1 + j from by omega] using hjv
      · intro j hj hja
        rcases j with _ | j2
        · rw [List.getD_cons_zero] at hja
          exact absurd h0 hja
        · have h2 := hmin j2 (by simpa using hj)
            (by simpa [List.getD_cons_succ] using hja)
          simpa [List.getD_cons_succ,
            show i0 + (j2 + 1) = i0 + 1 + j2 from by omega] using h2
    · rw [if_neg h0]
      by_cases hlt : acc.1 > addI (clks.getD i0 0) (htimestampDelta e.hdr)
      · rw [if_pos hlt]
        obtain ⟨hsel, hle, hmin⟩ := ih (i0 + 1)
          (addI (clks.getD i0 0) (htimestampDelta e.hdr), i0, e)
        refine ⟨?_, le_trans hle (le_of_lt hlt), ?_⟩
        · rcases hsel with h | ⟨j, hjl, hja, hjv⟩
          · refine Or.inr ⟨0, by simp, by simpa using h0, ?_⟩
            rw [h]
            simp
          · refine Or.inr ⟨j + 1, by simpa using (by omega : j < rest.length),
              ?_, ?_⟩
            · simpa [List.getD_cons_succ] using hja
            · simpa [List.getD_cons_succ,
                show i0 + (j + 1) = i0 + 1 + j from by omega] using hjv
        · intro j hj hja
          rcases j with _ | j2
          · simpa using hle
          · have h2 := hmin j2 (by simpa using hj)
              (by simpa [List.getD_cons_succ] using hja)
            simpa [List.getD_cons_succ,
              show i0 + (j2 + 1) = i0 + 1 + j2 from by omega] using h2
      · rw [if_neg hlt]
        obtain ⟨hsel, hle, hmin⟩ := ih (i0 + 1) acc
        refine ⟨?_, hle, ?_⟩
        · rcases hsel with h | ⟨j, hjl, hja, hjv⟩
          · exact Or.inl h
          · refine Or.inr ⟨j + 1, by simpa using (by omega : j < rest.length),
              ?_, ?_⟩
            · simpa [List.getD_cons_succ] using hja
            · simpa [List.getD_cons_succ,
                show i0 + (j + 1) = i0 + 1 + j from by omega] using hjv
        · intro j hj hja
          rcases j with _ | j2
          · have h2 := le_trans hle (not_lt.mp hlt)
            simpa using h2
          · have h2 := hmin j2 (by simpa using hj)
              (by simpa [List.getD_cons_succ] using hja)
            simpa [List.getD_cons_succ,
              show i0 + (j2 + 1) = i0 + 1 + j2 from by omega] using h2

/-- `read8` touches only the block queues: every other parser field is
unchanged. -/
theorem read8_frame (p : PState) (i : Nat) :
    (read8 p i).2.words = p.words ∧
    (read8 p i).2.minTraceTime = p.minTraceTime ∧
    (read8 p i).2.startTime = p.startTime ∧
    (read8 p i).2.endTime = p.endTime ∧
    (read8 p i).2.events = p.events ∧
    (read8 p i).2.clocks = p.clocks := by
  unfold read8
  split
  · exact ⟨rfl, rfl, rfl, rfl, rfl, rfl⟩
  · exact ⟨rfl, rfl, rfl, rfl, rfl, rfl⟩

/-- `refreshEvent` for processor `i` changes only processor `i`'s blocks
and clock: the words, time extents, pending-event list and every other
processor's clock are unchanged. -/
theorem refresh_frame :
    ∀ (fuel : Nat) (p : PState) (i : Nat) (r : PEv) (q : PState),
    refreshEvent p i fuel = some (.ok (r, q)) →
    q.words = p.words ∧ q.minTraceTime = p.minTraceTime ∧
    q.startTime = p.startTime ∧ q.endTime = p.endTime ∧
    q.events = p.events ∧
    (∀ j, j ≠ i → q.clocks.getD j 0 = p.clocks.getD j 0) := by
  intro fuel
  induction fuel with
  | zero =>
    intro p i r q h
    exact absurd h (by simp [refreshEvent])
  | succ f ih =>
    intro p i r q h
    obtain ⟨w8, m8, s8, e8, v8, c8⟩ := read8_frame p i
    simp only [refreshEvent] at h
    split at h
    · simp only [Option.some.injEq, Except.ok.injEq, Prod.mk.injEq] at h
      rw [← h.2]
      exact ⟨w8, m8, s8, e8, v8, fun j _ => by rw [c8]⟩
    · split at h
      · obtain ⟨wf, mf, sf, ef, vf, cf⟩ := ih _ _ _ _ h
        refine ⟨by rw [wf]; exact w8, by rw [mf]; exact m8,
          by rw [sf]; exact s8, by rw [ef]; exact e8,
          by rw [vf]; exact v8, ?_⟩
        intro j hj
        rw [cf j hj]
        rw [getD_set_ne2 _ _ _ _ _ (fun hh => hj hh.symm), c8]
      · split at h
        · split at h
          · exact absurd h (by simp)
          · obtain ⟨wf, mf, sf, ef, vf, cf⟩ := ih _ _ _ _ h
            exact ⟨by rw [wf]; exact w8, by rw [mf]; exact m8,
              by rw [sf]; exact s8, by rw [ef]; exact e8,
              by rw [vf]; exact v8,
              fun j hj => by rw [cf j hj, c8]⟩
        · split at h
          · obtain ⟨w82, m82, s82, e82, v82, c82⟩ :=
              read8_frame (read8 p i).2 i
            simp only [Option.some.injEq, Except.ok.injEq,
              Prod.mk.injEq] at h
            rw [← h.2]
            exact ⟨by rw [w82]; exact w8, by rw [m82]; exact m8,
              by rw [s82]; exact s8, by rw [e82]; exact e8,
              by rw [v82]; exact v8,
              fun j _ => by rw [c82, c8]⟩
          · simp only [Option.some.injEq, Except.ok.injEq,
              Prod.mk.injEq] at h
            rw [← h.2]
            exact ⟨w8, m8, s8, e8, v8, fun j _ => by rw [c8]⟩

/-- Inversion of one `Next` iteration that produced an event: the scan
found a pending event, the trace window's end was not passed, the chosen
processor was refreshed, and either the event was in the window and
returned, or it fell before `TimeStart` and the loop retried. -/
theorem pNext_ev_inv (p : PState) (fR fT : Nat) (e : Event) (p2 : PState)
    (h : pNext p fR (fT + 1) = .ev e p2) :
    ∃ r q, (selOf p).1 ≠ maxI64 ∧
      refreshEvent p (selOf p).2.1 fR = some (.ok (r, q)) ∧
      ¬ (evOf p).Time > pTimeEnd p ∧
      ((¬ (evOf p).Time < pTimeStart p ∧ e = evOf p ∧
          p2 = { q with events := q.events.set (selOf p).2.1 r }) ∨
        ((evOf p).Time < pTimeStart p ∧
          pNext { q with events := q.events.set (selOf p).2.1 r } fR fT =
            .ev e p2)) := by
  unfold selOf evOf pTimeStart pTimeEnd
  simp only [pNext] at h
  split at h
  · exact absurd h (by simp)
  · rename_i hS
    split at h
    · exact absurd h (by simp)
    · rename_i hTE
      split at h
      · exact absurd h (by simp)
      · exact absurd h (by simp)
      · rename_i r2 q2 hr
        split at h
        · rename_i hTS
          exact ⟨r2, q2, hS, hr, hTE, Or.inr ⟨hTS, h⟩⟩
        · rename_i hTS
          injection h with he hp
          exact ⟨r2, q2, hS, hr, hTE, Or.inl ⟨hTS, he.symm, hp.symm⟩⟩

/-- Every event `Next` returns lies inside the trace's time window
`[TimeStart, TimeEnd]`. -/
theorem pNext_ev_window (fR : Nat) :
    ∀ (fT : Nat) (p : PState) (e : Event) (p2 : PState),
    pNext p fR fT = .ev e p2 →
    pTimeStart p ≤ e.Time ∧ e.Time ≤ pTimeEnd p := by
  intro fT
  induction fT with
  | zero =>
    intro p e p2 h
    exact absurd h (by simp [pNext])
  | succ fT ih =>
    intro p e p2 h
    obtain ⟨r, q, hS, hr, hTE, hrest⟩ := pNext_ev_inv p fR fT e p2 h
    rcases hrest with ⟨hTS, he, hp2⟩ | ⟨hTS, hnext⟩
    · subst he
      exact ⟨not_lt.mp hTS, not_lt.mp hTE⟩
    · obtain ⟨-, hmt, hst, het, -, -⟩ := refresh_frame fR p (selOf p).2.1 r q hr
      have hw := ih { q with events := q.events.set (selOf p).2.1 r } e p2 hnext
      unfold pTimeStart pTimeEnd at hw ⊢
      dsimp only at hw
      rw [hst, hmt, het] at hw
      exact hw

/-- C5: on a sliced trace, one `Parser.Next` call (a) only ever returns
events inside `[TimeStart, TimeEnd]`, (b) reports end of stream as soon
as the earliest pending event lies strictly past `TimeEnd`, (c) returns
the earliest pending event whenever its time is in the window — including
exactly at `TimeEnd` — and (d) silently retries (skips) when the earliest
pending event lies strictly before `TimeStart`. -/
theorem parser_next_slice (p : PState) (fR fT : Nat) :
    (∀ e p2, pNext p fR fT = .ev e p2 →
      pTimeStart p ≤ e.Time ∧ e.Time ≤ pTimeEnd p) ∧
    ((selOf p).1 ≠ maxI64 → pTimeEnd p < (evOf p).Time →
      pNext p fR (fT + 1) = .eof) ∧
    (∀ r q, (selOf p).1 ≠ maxI64 → pTimeStart p ≤ (evOf p).Time →
      (evOf p).Time ≤ pTimeEnd p →
      refreshEvent p (selOf p).2.1 fR = some (.ok (r, q)) →
      pNext p fR (fT + 1) =
        .ev (evOf p) { q with events := q.events.set (selOf p).2.1 r }) ∧
    (∀ r q, (selOf p).1 ≠ maxI64 → (evOf p).Time < pTimeStart p →
      (evOf p).Time ≤ pTimeEnd p →
      refreshEvent p (selOf p).2.1 fR = some (.ok (r, q)) →
      pNext p fR (fT + 1) =
        pNext { q with events := q.events.set (selOf p).2.1 r } fR fT) := by
  refine ⟨fun e p2 h => pNext_ev_window fR fT p e p2 h, ?_, ?_, ?_⟩
  · intro hS hT
    simp only [evOf, selOf, pTimeEnd] at hS hT
    simp only [pNext]
    rw [if_neg hS, if_pos hT]
  · intro r q hS hTs hTe hr
    simp only [evOf, selOf, pTimeStart, pTimeEnd] at hS hTs hTe hr ⊢
    simp only [pNext]
    rw [if_neg hS, if_neg (not_lt.mpr hTe), hr]
    dsimp only
    rw [if_neg (not_lt.mpr hTs)]
  · intro r q hS hTs hTe hr
    simp only [evOf, selOf, pTimeStart, pTimeEnd] at hS hTs hTe hr ⊢
    simp only [pNext]
    rw [if_neg hS, if_neg (not_lt.mpr hTe), hr]
    dsimp only
    rw [if_pos hTs]

/-- Witness for `parser_next_slice` on the three-word trace
`[Pid 0, Sync 128, Alloc(0x4000, 1 page)]` after initialization: the one
pending event is at the window start and is returned. -/
theorem parser_next_slice_witness :
    refreshEvent ⟨[4, 8, 16393], 128, 128, 128, [[], []], [0, 128],
        [⟨0, 0⟩, ⟨16393, 1⟩]⟩ 1 1 =
      some (.ok (⟨0, 0⟩, ⟨[4, 8, 16393], 128, 128, 128, [[], []], [0, 128],
        [⟨0, 0⟩, ⟨16393, 1⟩]⟩)) ∧
    pNext ⟨[4, 8, 16393], 128, 128, 128, [[], []], [0, 128],
        [⟨0, 0⟩, ⟨16393, 1⟩]⟩ 1 1 =
      .ev ⟨1, 0, 0, 16384, 8192⟩ ⟨[4, 8, 16393], 128, 128, 128, [[], []],
        [0, 128], [⟨0, 0⟩, ⟨0, 0⟩]⟩ :=
  ⟨rfl, (parser_next_slice ⟨[4, 8, 16393], 128, 128, 128, [[], []],
      [0, 128], [⟨0, 0⟩, ⟨16393, 1⟩]⟩ 1 0).2.2.1 ⟨0, 0⟩
    ⟨[4, 8, 16393], 128, 128, 128, [[], []], [0, 128], [⟨0, 0⟩, ⟨16393, 1⟩]⟩
    (by decide) (by decide) (by decide) rfl⟩

/-- C1: when every processor's stream reconstructs non-decreasing,
in-range timestamps (each refresh of a processor yields a pending
timestamp no smaller than the one it replaces, and all reconstructed
timestamps lie in `[minTraceTime, 2^63)` with `0 ≤ minTraceTime`), two
successive successful `Next` calls return events with non-decreasing
`Time`, and every returned event's `Base` and `Size` are multiples of the
8192-byte page size. -/
theorem parser_next_mono (p p2 p3 : PState) (fR fR2 : Nat) (e e2 : Event)
    (hmtt : 0 ≤ p.minTraceTime)
    (hts : ∀ i, (p.events.getD i ⟨0, 0⟩).hdr ≠ 0 →
      p.minTraceTime ≤ pendTs p i ∧ pendTs p i < 2 ^ 63)
    (href : ∀ i fuel r q, refreshEvent p i fuel = some (.ok (r, q)) →
      r.hdr ≠ 0 →
      pendTs p i ≤ addI (q.clocks.getD i 0) (htimestampDelta r.hdr) ∧
      addI (q.clocks.getD i 0) (htimestampDelta r.hdr) < 2 ^ 63)
    (h1 : pNext p fR 1 = .ev e p2)
    (h2 : pNext p2 fR2 1 = .ev e2 p3) :
    e.Time ≤ e2.Time ∧ 8192 ∣ e.Base ∧ 8192 ∣ e.Size ∧
    8192 ∣ e2.Base ∧ 8192 ∣ e2.Size := by
  obtain ⟨r, q, hS, hr, hTE, hrest⟩ := pNext_ev_inv p fR 0 e p2 h1
  rcases hrest with ⟨hTS, he, hp2⟩ | ⟨-, hnext⟩
  swap
  · exact absurd hnext (by simp [pNext])
  subst he
  subst hp2
  obtain ⟨hd1, -, hmin1⟩ := selLoop_spec p.clocks p.events 0 (maxI64, 0, ⟨0, 0⟩)
  have hsel : selOf p = selLoop p.clocks p.events 0 (maxI64, 0, ⟨0, 0⟩) := rfl
  rcases hd1 with hid | ⟨j, hjl, hja, hjv⟩
  · exact absurd (by rw [hsel, hid]) hS
  simp only [Nat.zero_add] at hjv
  have hv1 : (selOf p).1 = pendTs p j := by rw [hsel, hjv]; rfl
  have hvi : (selOf p).2.1 = j := by rw [hsel, hjv]
  obtain ⟨hb1, hb2⟩ := hts j hja
  have heT2 : (evOf p).Time = (selOf p).1 - p.minTraceTime := by
    have h0 : (evOf p).Time = subI (selOf p).1 p.minTraceTime := rfl
    rw [h0, hv1]
    exact subI_eq _ _ (by omega) (by omega)
  obtain ⟨-, hmt, -, -, hev, hck⟩ := refresh_frame fR p (selOf p).2.1 r q hr
  have hlow : ∀ i2,
      (({ q with events := q.events.set (selOf p).2.1 r } : PState).events.getD
          i2 ⟨0, 0⟩).hdr ≠ 0 →
      (selOf p).1 ≤ pendTs { q with events := q.events.set (selOf p).2.1 r } i2 ∧
      pendTs { q with events := q.events.set (selOf p).2.1 r } i2 < 2 ^ 63 := by
    intro i2 hact
    by_cases hii : i2 = (selOf p).2.1
    · have hgr : ({ q with events := q.events.set (selOf p).2.1 r } :
          PState).events.getD i2 ⟨0, 0⟩ = r := by
        dsimp only
        rw [hii]
        refine getD_set_self2 _ _ _ _ ?_
        rw [hev, hvi]
        exact hjl
      rw [hgr] at hact
      have hclk : pendTs { q with events := q.events.set (selOf p).2.1 r } i2 =
          addI (q.clocks.getD i2 0) (htimestampDelta r.hdr) := by
        unfold pendTs
        rw [hgr]
      rw [hclk]
      have hrr := href i2 fR r q (by rw [hii]; exact hr) hact
      refine ⟨?_, hrr.2⟩
      rw [hv1, ← hvi, ← hii]
      exact hrr.1
    · have hgr : ({ q with events := q.events.set (selOf p).2.1 r } :
          PState).events.getD i2 ⟨0, 0⟩ = p.events.getD i2 ⟨0, 0⟩ := by
        dsimp only
        rw [getD_set_ne2 _ _ _ _ _ (fun hh => hii hh.symm), hev]
      have hclk : ({ q with events := q.events.set (selOf p).2.1 r } :
          PState).clocks.getD i2 0 = p.clocks.getD i2 0 := by
        dsimp only
        exact hck i2 hii
      have hpend : pendTs { q with events := q.events.set (selOf p).2.1 r } i2 =
          pendTs p i2 := by
        unfold pendTs
        rw [hgr, hclk]
      rw [hgr] at hact
      rw [hpend]
      obtain ⟨hb1a, hb2a⟩ := hts i2 hact
      refine ⟨?_, hb2a⟩
      have hlen : i2 < p.events.length := by
        by_contra hcon
        rw [List.getD_eq_default _ _ (by omega)] at hact
        exact hact rfl
      have hm := hmin1 i2 hlen hact
      simp only [Nat.zero_add] at hm
      rw [hsel]
      exact hm
  obtain ⟨P2, hP2⟩ : ∃ P2,
      ({ q with events := q.events.set (selOf p).2.1 r } : PState) = P2 :=
    ⟨_, rfl⟩
  rw [hP2] at h2 hlow
  have hP2m : P2.minTraceTime = p.minTraceTime := by
    rw [← hP2]
    exact hmt
  obtain ⟨r2, q2, hS2, hr2, hTE2, hrest2⟩ := pNext_ev_inv P2 fR2 0 e2 p3 h2
  rcases hrest2 with ⟨hTS2, he2, hp3⟩ | ⟨-, hnext2⟩
  swap
  · exact absurd hnext2 (by simp [pNext])
  subst he2
  obtain ⟨hd2, -, -⟩ := selLoop_spec P2.clocks P2.events 0 (maxI64, 0, ⟨0, 0⟩)
  have hsel2 : selOf P2 =
      selLoop P2.clocks P2.events 0 (maxI64, 0, ⟨0, 0⟩) := rfl
  rcases hd2 with hid2 | ⟨j2, hjl2, hja2, hjv2⟩
  · exfalso
    apply hS2
    rw [hsel2, hid2]
  simp only [Nat.zero_add] at hjv2
  have hv12 : (selOf P2).1 = pendTs P2 j2 := by
    rw [hsel2, hjv2]
    rfl
  obtain ⟨hlow1, hlow2⟩ := hlow j2 hja2
  have he2T : (evOf P2).Time = (selOf P2).1 - p.minTraceTime := by
    have h0 : (evOf P2).Time = subI (selOf P2).1 P2.minTraceTime := rfl
    rw [h0, hP2m, hv12]
    refine subI_eq _ _ (by omega) (by omega)
  refine ⟨?_, hbase_dvd _, sizeField_dvd _, hbase_dvd _, sizeField_dvd _⟩
  rw [heT2, he2T, hv12]
  omega

/-- Witness for `parser_next_mono` on the four-word trace
`[Pid 0, Sync 128, Alloc, Alloc]`: two successive calls return the two
allocation events in time order. -/
theorem parser_next_mono_witness :
    pNext ⟨[4, 8, 16393, 16393], 128, 128, 128, [[], [⟨24, 32, 128, 0⟩]],
        [0, 128], [⟨0, 0⟩, ⟨16393, 1⟩]⟩ 1 1 =
      .ev ⟨1, 0, 0, 16384, 8192⟩ ⟨[4, 8, 16393, 16393], 128, 128, 128,
        [[], []], [0, 128], [⟨0, 0⟩, ⟨16393, 1⟩]⟩ ∧
    pNext ⟨[4, 8, 16393, 16393], 128, 128, 128, [[], []], [0, 128],
        [⟨0, 0⟩, ⟨16393, 1⟩]⟩ 1 1 =
      .ev ⟨1, 0, 0, 16384, 8192⟩ ⟨[4, 8, 16393, 16393], 128, 128, 128,
        [[], []], [0, 128], [⟨0, 0⟩, ⟨0, 0⟩]⟩ ∧
    ((⟨1, 0, 0, 16384, 8192⟩ : Event).Time ≤
        (⟨1, 0, 0, 16384, 8192⟩ : Event).Time ∧
      8192 ∣ (⟨1, 0, 0, 16384, 8192⟩ : Event).Base ∧
      8192 ∣ (⟨1, 0, 0, 16384, 8192⟩ : Event).Size ∧
      8192 ∣ (⟨1, 0, 0, 16384, 8192⟩ : Event).Base ∧
      8192 ∣ (⟨1, 0, 0, 16384, 8192⟩ : Event).Size) :=
  ⟨rfl, rfl,
    parser_next_mono
      ⟨[4, 8, 16393, 16393], 128, 128, 128, [[], [⟨24, 32, 128, 0⟩]],
        [0, 128], [⟨0, 0⟩, ⟨16393, 1⟩]⟩
      ⟨[4, 8, 16393, 16393], 128, 128, 128, [[], []], [0, 128],
        [⟨0, 0⟩, ⟨16393, 1⟩]⟩
      ⟨[4, 8, 16393, 16393], 128, 128, 128, [[], []], [0, 128],
        [⟨0, 0⟩, ⟨0, 0⟩]⟩
      1 1 ⟨1, 0, 0, 16384, 8192⟩ ⟨1, 0, 0, 16384, 8192⟩
      (by decide)
      (by
        intro i hi
        match i, hi with
        | 0, hi => exact absurd rfl hi
        | 1, hi => exact ⟨by decide, by decide⟩
        | n + 2, hi => exact absurd rfl hi)
      (by
        intro i fuel r q h hrr
        match i, fuel, h with
        | i, 0, h => exact absurd h (by simp [refreshEvent])
        | 0, f + 1, h =>
          rw [show refreshEvent ⟨[4, 8, 16393, 16393], 128, 128, 128,
              [[], [⟨24, 32, 128, 0⟩]], [0, 128], [⟨0, 0⟩, ⟨16393, 1⟩]⟩ 0
              (f + 1) = some (.ok (⟨0, 0⟩, ⟨[4, 8, 16393, 16393], 128, 128,
              128, [[], [⟨24, 32, 128, 0⟩]], [0, 128],
              [⟨0, 0⟩, ⟨16393, 1⟩]⟩)) from rfl] at h
          simp only [Option.some.injEq, Except.ok.injEq, Prod.mk.injEq] at h
          rw [← h.1] at hrr
          exact absurd rfl hrr
        | 1, f + 1, h =>
          rw [show refreshEvent ⟨[4, 8, 16393, 16393], 128, 128, 128,
              [[], [⟨24, 32, 128, 0⟩]], [0, 128], [⟨0, 0⟩, ⟨16393, 1⟩]⟩ 1
              (f + 1) = some (.ok (⟨16393, 1⟩, ⟨[4, 8, 16393, 16393], 128,
              128, 128, [[], []], [0, 128], [⟨0, 0⟩, ⟨16393, 1⟩]⟩))
              from rfl] at h
          simp only [Option.some.injEq, Except.ok.injEq, Prod.mk.injEq] at h
          rw [← h.1, ← h.2]
          exact ⟨by decide, by decide⟩
        | n + 2, f + 1, h =>
          rw [show refreshEvent ⟨[4, 8, 16393, 16393], 128, 128, 128,
              [[], [⟨24, 32, 128, 0⟩]], [0, 128], [⟨0, 0⟩, ⟨16393, 1⟩]⟩
              (n + 2) (f + 1) = some (.ok (⟨0, 0⟩, ⟨[4, 8, 16393, 16393],
              128, 128, 128, [[], [⟨24, 32, 128, 0⟩]], [0, 128],
              [⟨0, 0⟩, ⟨16393, 1⟩]⟩)) from rfl] at h
          simp only [Option.some.injEq, Except.ok.injEq, Prod.mk.injEq] at h
          rw [← h.1] at hrr
          exact absurd rfl hrr)
      rfl rfl⟩

end PageTrace
